import Mathlib

/-!
Verification development for the s3sync repository.

The definitions below are a shallow embedding of the diff engine
(`s3sync/sync.py`, `S3SyncTool.on_diff`), the update loop and confirmation
gate (`S3SyncTool.on_update`, `S3SyncTool.confirm`), and the worker pool and
rename task (`s3sync/tasks.py`).  Python dictionaries are modelled as
insertion-ordered association lists (CPython dictionaries preserve insertion
order; the diff code only ever replaces values in place, appends new keys, or
deletes keys).  Machine floats on the Python side are idealised as rationals;
sizes are naturals; timestamps are rationals (epoch seconds, remote
timestamps are integral since the parse format fixes the fractional part to
`.000Z`).  Fallible code paths (`KeyError` on a missing dictionary field,
`ZeroDivisionError` in the size-percentage computation) are modelled with
`Except String`.
-/

namespace S3Sync

/-- A diff-map comment entry, one constructor per `comment.append` site of
`on_diff` (`'size: ..%'`, `'md5: different'`, `'modified: ..'`,
`'new: ..'`). -/
inductive Comment where
  | sizePct (p : ℚ)
  | md5Different
  | modifiedDelta (d : ℚ)
  | newName (k : String)
deriving DecidableEq, Repr

/-- One local file as produced by the local scan of `on_diff`: the
normalised relative key, `os.stat` size, `st_ctime` and `st_mtime`
(epoch seconds, possibly fractional), and the md5 returned by
`utils.file_hash` on its content. -/
structure LocalFile where
  key : String
  size : Nat
  ctime : ℚ
  mtime : ℚ
  hash : String
deriving DecidableEq, Repr

/-- One remote object as produced by the remote listing of `on_diff`:
`file_.name`, `file_.size`, the parsed `last_modified` timestamp (epoch
seconds, as produced by `strptime` on the fixed `%Y-%m-%dT%H:%M:%S.000Z`
format), and the etag without quotes. -/
structure RemoteObj where
  name : String
  size : Nat
  modified : ℚ
  md5 : String
deriving DecidableEq, Repr

/-- One value of the `remote_files` dictionary in `on_diff`.  Optional
fields mirror dictionary keys that are present only in some record shapes:
remote-seeded records carry `name`/`size`, records created for local-only
files carry `localSize` but no `size`.  `modified` holds the remote
timestamp (parsed) for remote-seeded records and `st_mtime` for local-only
records; `md5` holds the etag for remote-seeded records and the local file
hash for local-only records. -/
structure Record where
  state : Char
  name : Option String := none
  size : Option Nat := none
  modified : ℚ := 0
  md5 : String := ""
  localSize : Option Nat := none
  localName : Option String := none
  comment : List Comment := []
deriving DecidableEq, Repr

/-- The `remote_files` dictionary: an insertion-ordered association list. -/
abbrev DiffMap := List (String × Record)

/-- Dictionary lookup (`remote_files[key]` / `key in remote_files`). -/
def findRec (k : String) : DiffMap → Option Record
  | [] => none
  | (k2, r) :: rest => if k2 = k then some r else findRec k rest

/-- Dictionary assignment `remote_files[k] = r`: replaces the value in
place when the key is present (keeping its position), appends otherwise. -/
def insertRec (k : String) (r : Record) : DiffMap → DiffMap
  | [] => [(k, r)]
  | (k2, r2) :: rest =>
      if k2 = k then (k, r) :: rest else (k2, r2) :: insertRec k r rest

/-- Dictionary deletion `del remote_files[k]`. -/
def eraseRec (k : String) (m : DiffMap) : DiffMap :=
  m.filter (fun p => decide (p.1 ≠ k))

/-- `for key in to_del: del remote_files[key]`. -/
def eraseAll (td : List String) (m : DiffMap) : DiffMap :=
  td.foldl (fun acc k => eraseRec k acc) m

/-- The key list of the map, in insertion order. -/
def keysOf (m : DiffMap) : List String := m.map Prod.fst

/-- Python 2 `round(x, 2)`: round to two decimal places.  The arguments in
this code are non-negative, where Python 2 rounding (half away from zero)
agrees with `round` (half up). -/
def round2 (q : ℚ) : ℚ := (round (q * 100) : ℤ) / 100

/-- One character of Python's `str.lower()` (the keys in play are ASCII
paths; `lower()` maps `A`-`Z` to `a`-`z`). -/
def lowerChar (c : Char) : Char :=
  if 'A' ≤ c ∧ c ≤ 'Z' then Char.ofNat (c.toNat + 32) else c

/-- Python's `.lower()` on a key string. -/
def lowerStr (s : String) : String := String.mk (s.data.map lowerChar)

/-- Python's `name[-1] == '/'` test used to drop directory placeholder
keys from the remote listing. -/
def endsWithSlash (s : String) : Bool := s.data.getLast? == some '/'

/-- The record seeded for a remote object (state `'-'`, line 370 of
`s3sync/sync.py`). -/
def minusRecord (ro : RemoteObj) : Record :=
  { state := '-', name := some ro.name, size := some ro.size,
    modified := ro.modified, md5 := ro.md5, comment := [] }

/-- The record created for a local-only file (state `'+'`, line 428 of
`s3sync/sync.py`). -/
def plusRecord (lf : LocalFile) : Record :=
  { state := '+', localSize := some lf.size, modified := lf.mtime,
    md5 := lf.hash, comment := [] }

/-- Lines 405-419 of `s3sync/sync.py`: the not-equal branch.  Stores the
local size, compares the local modification time (truncated to whole
seconds by `.replace(microsecond=0)`) with the remote one shifted by
`timedelta(hours=4)`, appends the `modified:` comment and picks `'>'` or
`'<'`. -/
def notEqualUpdate (lf : LocalFile) (r : Record) : Record :=
  let localModified : ℤ := ⌊lf.ctime⌋
  let remoteModified : ℚ := r.modified + 4 * 3600
  { r with
    localSize := some lf.size,
    comment := r.comment ++ [Comment.modifiedDelta ((localModified : ℚ) - remoteModified)],
    state := if (localModified : ℚ) > remoteModified then '>' else '<' }

/-- Lines 388-419 of `s3sync/sync.py`: comparing one local file against the
record stored under the same key.  Reading the `size` field of a record
that lacks it (a local-only record hit by a duplicate local key) is a
`KeyError`; dividing by a zero local size is a `ZeroDivisionError`. -/
def compareRecord (skipMd5 : Bool) (lf : LocalFile) (r : Record) :
    Except String Record :=
  match r.size with
  | none => Except.error "KeyError: size"
  | some rsize =>
      if lf.size ≠ rsize then
        if lf.size = 0 then Except.error "ZeroDivisionError"
        else
          Except.ok (notEqualUpdate lf
            { r with comment := r.comment ++
                [Comment.sizePct (round2 ((rsize : ℚ) / (lf.size : ℚ) * 100))] })
      else if !skipMd5 && lf.hash ≠ r.md5 then
        Except.ok (notEqualUpdate lf
          { r with comment := r.comment ++ [Comment.md5Different] })
      else
        Except.ok { r with state := '=', comment := [] }

/-- One iteration of the `for key, f_path in src_files` loop (lines
385-434): compare against an existing record and delete it when its new
state is not in the requested modes, or create a `'+'` record when the key
is absent and `'+'` or `'r'` was requested. -/
def compareStep (modes : List Char) (skipMd5 : Bool) (m : DiffMap)
    (lf : LocalFile) : Except String DiffMap :=
  match findRec lf.key m with
  | some r =>
      match compareRecord skipMd5 lf r with
      | Except.error e => Except.error e
      | Except.ok r2 =>
          if r2.state ∈ modes then Except.ok (insertRec lf.key r2 m)
          else Except.ok (eraseRec lf.key m)
  | none =>
      if '+' ∈ modes ∨ 'r' ∈ modes then
        Except.ok (insertRec lf.key (plusRecord lf) m)
      else Except.ok m

/-- The whole local-entry loop of `on_diff`. -/
def compareAll (modes : List Char) (skipMd5 : Bool) :
    List LocalFile → DiffMap → Except String DiffMap
  | [], m => Except.ok m
  | lf :: rest, m =>
      match compareStep modes skipMd5 m lf with
      | Except.error e => Except.error e
      | Except.ok m2 => compareAll modes skipMd5 rest m2

/-- Seeding of `remote_files` from the remote listing (lines 364-378):
`remote_files[file_.name.lower()] = dict(...)` in listing order. -/
def seedRemote : List RemoteObj → DiffMap → DiffMap
  | [], m => m
  | ro :: rest, m => seedRemote rest (insertRec (lowerStr ro.name) (minusRecord ro) m)

/-- The inner-loop condition of the rename pass (lines 442-447): a record
with state `'-'` whose `size` equals the `'+'` record's `local_size` and
whose `md5` equals the `'+'` record's `md5`.  The md5 comparison is
unconditional: `skip_md5` is not consulted here. -/
def renameMatches (nd : Record) (d : Record) : Bool :=
  d.state = '-' && d.size = nd.localSize && d.md5 = nd.md5

/-- The inner `for name, data in six.iteritems(remote_files)` scan of the
rename pass: the first entry matching `renameMatches`, if any. -/
def findRenameTarget (nd : Record) : DiffMap → Option (String × Record)
  | [] => none
  | (n, d) :: rest =>
      if renameMatches nd d then some (n, d) else findRenameTarget nd rest

/-- Lines 449-455: converting the matched `'-'` record into an `'r'`
record for the `'+'` record at key `k`. -/
def renameUpdate (d : Record) (k : String) (nd : Record) : Record :=
  { d with
    state := 'r',
    localName := some k,
    localSize := nd.localSize,
    comment := d.comment ++ [Comment.newName k] }

/-- The outer loop of the rename pass (lines 438-457), iterating over the
keys of the map (values are mutated in place; no key is inserted or
deleted until after the loop, so the key sequence of the live dictionary
is the initial key list).  Returns the mutated map and the accumulated
`to_del` list. -/
def renameScan : List String → DiffMap → List String → DiffMap × List String
  | [], m, td => (m, td)
  | k :: rest, m, td =>
      match findRec k m with
      | none => renameScan rest m td
      | some nd =>
          if nd.state = '+' then
            match findRenameTarget nd m with
            | none => renameScan rest m td
            | some (n, d) =>
                renameScan rest (insertRec n (renameUpdate d k nd) m) (td ++ [k])
          else renameScan rest m td

/-- Lines 458-459: deleting the collected `to_del` keys. -/
def renameFinish (p : DiffMap × List String) : DiffMap := eraseAll p.2 p.1

/-- The whole rename pass (lines 437-459). -/
def renamePass (m : DiffMap) : DiffMap := renameFinish (renameScan (keysOf m) m [])

/-- The local side of the inventory as it enters the comparison: the
file-type filter (`_check_file_type`, abstracted as the predicate `ft`)
and the lower-casing key normalisation of the scan loops. -/
def localInventory (ft : String → Bool) (locals : List LocalFile) : List LocalFile :=
  (locals.filter (fun lf => ft lf.key)).map (fun lf => { lf with key := lowerStr lf.key })

/-- The remote side of the inventory as it enters the seeding loop:
directory placeholders (names ending in `/`) are dropped, then the
file-type filter is applied. -/
def remoteInventory (ft : String → Bool) (remotes : List RemoteObj) : List RemoteObj :=
  remotes.filter (fun ro => !endsWithSlash ro.name && ft ro.name)

/-- `S3SyncTool.on_diff` (lines 304-473 of `s3sync/sync.py`), from the two
scanned inventories to the returned `remote_files` map: seed from the
remote listing, run the comparison loop over local entries, run the rename
pass when `'r'` is requested, and apply the final mode filter (which the
code skips when both `'-'` and `'+'` are requested). -/
def onDiff (ft : String → Bool) (locals : List LocalFile)
    (remotes : List RemoteObj) (modes : List Char) (skipMd5 : Bool) :
    Except String DiffMap :=
  let m0 := seedRemote (remoteInventory ft remotes) []
  match compareAll modes skipMd5 (localInventory ft locals) m0 with
  | Except.error e => Except.error e
  | Except.ok m1 =>
      let m2 := if 'r' ∈ modes then renamePass m1 else m1
      Except.ok
        (if '-' ∉ modes ∨ '+' ∉ modes then
          m2.filter (fun p => decide (p.2.state ∈ modes))
        else m2)

/-- The three sites where `on_diff` drops the record held under key `k`
(or never creates one) because a state is not in the requested mode set:
the per-key deletion after comparison (lines 421-422 — `r2` is the
compared record, deleted because its new state is unrequested; `pre` is
the prefix of local entries processed before the deleting one and `mp`
the map state at that point), the skip of a local-only key when neither
`'+'` nor `'r'` is requested (lines 424-426 — `r2` is the `'+'` record
that would have been created, its state unrequested), and the final
filter (lines 461-464 — `r2` is the record removed there). -/
def KeyModeDiscard (ft : String → Bool) (locals : List LocalFile)
    (remotes : List RemoteObj) (modes : List Char) (skipMd5 : Bool)
    (k : String) (r2 : Record) : Prop :=
  (∃ pre lf post mp r, localInventory ft locals = pre ++ lf :: post
    ∧ lf.key = k
    ∧ compareAll modes skipMd5 pre (seedRemote (remoteInventory ft remotes) [])
        = Except.ok mp
    ∧ findRec k mp = some r
    ∧ compareRecord skipMd5 lf r = Except.ok r2)
  ∨ ('+' ∉ modes ∧ 'r' ∉ modes
    ∧ ∃ lf ∈ localInventory ft locals, lf.key = k ∧ r2 = plusRecord lf)
  ∨ (∃ m1, compareAll modes skipMd5 (localInventory ft locals)
        (seedRemote (remoteInventory ft remotes) []) = Except.ok m1
    ∧ (k, r2) ∈ (if 'r' ∈ modes then renamePass m1 else m1))

/-! ## Update phase: confirmation gate and the `on_update` loop -/

/-- The command-line flags of the `update` subcommand that drive
`on_update` (lines 196-228 of `s3sync/sync.py`). -/
structure UpdateFlags where
  quiet : Bool := false
  confirm_upload : Bool := false
  confirm_download : Bool := false
  confirm_replace_upload : Bool := false
  confirm_replace_download : Bool := false
  confirm_delete_local : Bool := false
  confirm_delete_remote : Bool := false
  confirm_rename_remote : Bool := false
  force_upload : Bool := false
deriving DecidableEq, Repr

/-- `S3SyncTool.confirm` (lines 259-282): in quiet mode the answer is the
implicit `'n'` with no prompt; otherwise a remembered per-state answer (the
`confirm_permanent` dictionary `perm`) is returned without prompting; and
otherwise the user is prompted.  Console input is modelled by the script
`inputs` of already-validated answers, each paired with the flag that the
user typed the `all` modifier (which pins the answer for the state
character `code`).  An exhausted script stands for a session that would
block on input; it yields `"n"` here.  The returned flag records whether a
prompt was issued. -/
def confirm (quiet : Bool) (code : Char) (allowRemember : Bool)
    (perm : List (Char × String)) (inputs : List (String × Bool)) :
    String × List (Char × String) × List (String × Bool) × Bool :=
  if quiet then ("n", perm, inputs, false)
  else if allowRemember && (perm.lookup code).isSome then
    ((perm.lookup code).getD "n", perm, inputs, false)
  else
    match inputs with
    | [] => ("n", perm, inputs, true)
    | (ans, all) :: rest =>
        (ans, if allowRemember && all then (code, ans) :: perm else perm,
          rest, true)

/-- What one iteration of the `on_update` record loop decides: increment
the processed counter (state `'='`), skip the record (answer `'n'`),
run an action (the `data['action']` string plus the record's state at that
point), or fall through the whole `elif` chain leaving `data['action']`
unset (which would crash `_update_process` with a `KeyError`). -/
inductive StepOut where
  | countEq
  | skip
  | runAct (action : String) (finalState : Char)
  | fallthrough
deriving DecidableEq, Repr

/-- The result of one iteration of the `on_update` loop body: the
decision, the threaded-through `confirm_permanent` dictionary and input
script, whether `_confirm_update` was called at all, and whether it
actually prompted. -/
structure StepResult where
  out : StepOut
  perm : List (Char × String)
  inputs : List (String × Bool)
  gateCalled : Bool
  prompted : Bool
deriving DecidableEq, Repr

/-- The body of the `for name, data in six.iteritems(files)` loop of
`on_update` (lines 484-532 of `s3sync/sync.py`).  `_confirm_update` passes
`data['state']` as the remember-code and `allow_remember=True`; in the
`'>' or force_upload` branch the state is first overwritten with `'>'`
(line 515), so that branch's gate code is `'>'`. -/
def updateStep (fl : UpdateFlags) (r : Record)
    (perm : List (Char × String)) (inputs : List (String × Bool)) : StepResult :=
  if r.state = '=' then
    ⟨StepOut.countEq, perm, inputs, false, false⟩
  else if r.state = '+' then
    if fl.confirm_upload then ⟨StepOut.runAct "upload" '+', perm, inputs, false, false⟩
    else if fl.confirm_delete_local then
      ⟨StepOut.runAct "delete_local" '+', perm, inputs, false, false⟩
    else
      match confirm fl.quiet '+' true perm inputs with
      | (ans, perm2, inputs2, pr) =>
          if ans = "n" then ⟨StepOut.skip, perm2, inputs2, true, pr⟩
          else ⟨StepOut.runAct ans '+', perm2, inputs2, true, pr⟩
  else if r.state = '-' then
    if fl.confirm_download then
      ⟨StepOut.runAct "download" '-', perm, inputs, false, false⟩
    else if fl.confirm_delete_remote then
      ⟨StepOut.runAct "delete_remote" '-', perm, inputs, false, false⟩
    else
      match confirm fl.quiet '-' true perm inputs with
      | (ans, perm2, inputs2, pr) =>
          if ans = "n" then ⟨StepOut.skip, perm2, inputs2, true, pr⟩
          else ⟨StepOut.runAct ans '-', perm2, inputs2, true, pr⟩
  else if r.state = '>' ∨ fl.force_upload then
    if !fl.confirm_replace_upload then
      match confirm fl.quiet '>' true perm inputs with
      | (ans, perm2, inputs2, pr) =>
          if ans = "n" then ⟨StepOut.skip, perm2, inputs2, true, pr⟩
          else ⟨StepOut.runAct "replace_upload" '>', perm2, inputs2, true, pr⟩
    else ⟨StepOut.runAct "replace_upload" '>', perm, inputs, false, false⟩
  else if r.state = '<' then
    if !fl.confirm_replace_download then
      match confirm fl.quiet '<' true perm inputs with
      | (ans, perm2, inputs2, pr) =>
          if ans = "n" then ⟨StepOut.skip, perm2, inputs2, true, pr⟩
          else ⟨StepOut.runAct "replace_download" '<', perm2, inputs2, true, pr⟩
    else ⟨StepOut.runAct "replace_download" '<', perm, inputs, false, false⟩
  else if r.state = 'r' then
    if !fl.confirm_rename_remote then
      match confirm fl.quiet 'r' true perm inputs with
      | (ans, perm2, inputs2, pr) =>
          if ans = "n" then ⟨StepOut.skip, perm2, inputs2, true, pr⟩
          else ⟨StepOut.runAct "rename_remote" 'r', perm2, inputs2, true, pr⟩
    else ⟨StepOut.runAct "rename_remote" 'r', perm, inputs, false, false⟩
  else ⟨StepOut.fallthrough, perm, inputs, false, false⟩

/-- The `_update_<action>` handlers that exist on `S3SyncTool` in
`s3sync/sync.py` (there is no `_update_delete_local`). -/
def updateHandlerExists (action : String) : Bool :=
  action ∈ ["replace_upload", "upload", "delete_remote", "rename_remote",
    "replace_download", "download"]

/-- The return value of `_update_process` (lines 563-573): `1` after a
successful handler run, `0` when the handler does not exist
(`AttributeError` → "not developed yet").  A store failure would re-raise;
handler success is assumed here. -/
def updateProcessReturn (action : String) : Nat :=
  if updateHandlerExists action then 1 else 0

/-- The `processed` accounting of `on_update` (lines 478-561): `'='`
records bump the counter and are skipped; otherwise the decided action
either runs on an `UploadThread` (when `thread_max_count > 1`) — whose
return value is discarded — or runs inline, adding `_update_process`'s
return value.  A fall-through record (no `data['action']`) crashes the
loop (`none`). -/
def onUpdateLoop (fl : UpdateFlags) (threadMaxCount : Nat) :
    List (String × Record) → List (Char × String) → List (String × Bool) →
    Nat → Option Nat
  | [], _, _, acc => some acc
  | (_, r) :: rest, perm, inputs, acc =>
      let sr := updateStep fl r perm inputs
      match sr.out with
      | StepOut.countEq => onUpdateLoop fl threadMaxCount rest sr.perm sr.inputs (acc + 1)
      | StepOut.skip => onUpdateLoop fl threadMaxCount rest sr.perm sr.inputs acc
      | StepOut.runAct a _ =>
          if threadMaxCount > 1 then
            onUpdateLoop fl threadMaxCount rest sr.perm sr.inputs acc
          else
            onUpdateLoop fl threadMaxCount rest sr.perm sr.inputs
              (acc + updateProcessReturn a)
      | StepOut.fallthrough => none

/-! ## Worker pool (`s3sync/tasks.py`) -/

/-- The observable outcome of one queued task invocation: a normal return
(whose result dictionary carries a byte count) or a raised exception. -/
inductive TOutcome where
  | ok (size : Nat)
  | exn
deriving DecidableEq, Repr

/-- `Worker.run` (lines 26-38 of `s3sync/tasks.py`) for a single worker
draining the queue alone, task by task: the `try`/`finally` around the
task call marks the task done but has no `except` clause, so a raising
task terminates the loop — and the thread — right after `task_done()`.
Returns the tasks this worker never executed, the results it put on the
result queue, and whether it died from a task exception. -/
def workerRun : List TOutcome → List Nat → List TOutcome × List Nat × Bool
  | [], res => ([], res, false)
  | t :: rest, res =>
      match t with
      | TOutcome.ok n => workerRun rest (res ++ [n])
      | TOutcome.exn => (rest, res, true)

/-- The pool-level execution of a task queue by `alive` workers,
sequentialised (tasks are independent; each is executed by exactly one
worker).  A task exception kills the worker that ran it — after
`task_done()` in the `finally`, so the unfinished count still drains —
and the remaining workers keep pulling tasks.  With no live worker left,
the remaining tasks are never dequeued (`ThreadPool.join`, which polls
`task_queue.unfinished_tasks`, would then block forever; it never sees a
task exception either way).  Returns the surviving worker count, the
collected results, and the tasks left unprocessed. -/
def poolRun : Nat → List TOutcome → List Nat → Nat × List Nat × List TOutcome
  | alive, [], res => (alive, res, [])
  | 0, q, res => (0, res, q)
  | alive + 1, t :: rest, res =>
      match t with
      | TOutcome.ok n => poolRun (alive + 1) rest (res ++ [n])
      | TOutcome.exn => poolRun alive rest res

/-- Whether a task outcome is an exception. -/
def isExn : TOutcome → Bool
  | TOutcome.ok _ => false
  | TOutcome.exn => true

/-- The byte counts of the tasks that complete normally, in order. -/
def okSizes (q : List TOutcome) : List Nat :=
  q.filterMap (fun t => match t with
    | TOutcome.ok n => some n
    | TOutcome.exn => none)

/-! ## The `RenameRemote` task (`s3sync/tasks.py`, lines 275-295) -/

/-- The visible effect of one task execution on the remote bucket
(modelled as the list of keys it holds): the resulting bucket, the
comment written into the record on success, and whether the handler
raised. -/
structure TaskEffect where
  store : List String
  comment : Option (List String)
  raised : Bool
deriving DecidableEq, Repr

/-- `key.delete()`: remove a key from the bucket. -/
def s3delete (store : List String) (k : String) : List String :=
  store.filter (fun x => decide (x ≠ k))

/-- `data['key'].copy(bucket, dst, ...)`: on success the destination key
is created and the new key object is returned; on failure `None` is
returned and the bucket is unchanged. -/
def s3copy (copyOk : Bool) (dst : String) (store : List String) :
    Option String × List String :=
  if copyOk then (some dst, store ++ [dst]) else (none, store)

/-- `RenameRemote.handler`: copy the source key to the new name, and only
if the copy returned a key (`if new_key:`) delete the source and set
`data['comment'] = ['renamed']`; otherwise raise
`Exception('s3 key copy failed')`. -/
def renameRemoteHandler (copyOk : Bool) (src dst : String)
    (store : List String) : TaskEffect :=
  let step := s3copy copyOk dst store
  match step.1 with
  | some _ => { store := s3delete step.2 src, comment := some ["renamed"], raised := false }
  | none => { store := step.2, comment := none, raised := true }

/-! ## Concrete fixtures used by witnesses and counterexamples -/

/-- A file-type filter that lets everything through (no `-f` option). -/
def ftAll : String → Bool := fun _ => true

/-- The full mode set `-=<>+r`. -/
def modesAll : List Char := ['-', '=', '<', '>', '+', 'r']

/-- C1 fixture: local file of size 50 under key `a`. -/
def lfC1 : LocalFile := { key := "a", size := 50, ctime := 0, mtime := 0, hash := "h" }

/-- C1 fixture: remote object of size 100 under the same key. -/
def roC1 : RemoteObj := { name := "a", size := 100, modified := 0, md5 := "h" }

/-- C1 fixture: local file of size 10 under key `z`. -/
def lfC1z : LocalFile := { key := "z", size := 10, ctime := 0, mtime := 0, hash := "h" }

/-- C1 fixture: remote object of size 0 under key `z`. -/
def roC1z : RemoteObj := { name := "z", size := 0, modified := 0, md5 := "h" }

/-- C1 fixture: the record `compareRecord` produces for `lfC1` against
`minusRecord roC1` (the size-mismatch branch). -/
def rC1out : Record :=
  notEqualUpdate lfC1
    { minusRecord roC1 with
      comment := [Comment.sizePct (round2 (((100 : ℕ) : ℚ) / ((50 : ℕ) : ℚ) * 100))] }

/-- C2 fixture: local-only file `b`, size 5, content hash `h1`. -/
def lfC2 : LocalFile := { key := "b", size := 5, ctime := 0, mtime := 0, hash := "h1" }

/-- C2 fixture: remote-only object `a`, size 5, etag `h2`. -/
def roC2 : RemoteObj := { name := "a", size := 5, modified := 0, md5 := "h2" }

/-- C2 fixture: a `'-'` record for the amended-claim witness. -/
def dC2 : Record := minusRecord { name := "a", size := 5, modified := 0, md5 := "h" }

/-- C2 fixture: a `'+'` record for the amended-claim witness. -/
def ndC2 : Record := plusRecord { key := "b", size := 5, ctime := 0, mtime := 0, hash := "h" }

/-- C2 fixture: a diff map holding the two records above. -/
def mC2 : DiffMap := [("a", dC2), ("b", ndC2)]

/-- C3 fixture: one remote object. -/
def roC3 : RemoteObj := { name := "a", size := 7, modified := 0, md5 := "x" }

/-- C4 fixture: local-only file `b`, size 5, hash `h`. -/
def lfC4 : LocalFile := { key := "b", size := 5, ctime := 0, mtime := 0, hash := "h" }

/-- C4 fixture: remote-only object `a`, size 5, etag `h`. -/
def roC4 : RemoteObj := { name := "a", size := 5, modified := 0, md5 := "h" }

/-- C4 fixture: the `'r'` record the rename pass produces for
`roC4`/`lfC4`. -/
def rC4out : Record := renameUpdate (minusRecord roC4) "b" (plusRecord lfC4)

/-- C5 fixture: local file of size 1. -/
def lfC5 : LocalFile := { key := "k", size := 1, ctime := 0, mtime := 0, hash := "h" }

/-- C5 fixture: remote object of size 2 under the same key. -/
def roC5 : RemoteObj := { name := "k", size := 2, modified := 0, md5 := "h" }

/-- C5 fixture: the record `compareRecord` produces for `lfC5` against
`minusRecord roC5`. -/
def rC5out : Record :=
  notEqualUpdate lfC5
    { minusRecord roC5 with
      comment := [Comment.sizePct (round2 (((2 : ℕ) : ℚ) / ((1 : ℕ) : ℚ) * 100))] }

/-- C5 fixture: update flags with the force-upload override and the
replace-upload auto-confirm set. -/
def flC5 : UpdateFlags := { force_upload := true, confirm_replace_upload := true }

/-- C5 fixture: a record whose timestamp comparison said download. -/
def recC5 : Record := { state := '<' }

/-- C8 fixture: local file equal to its remote counterpart. -/
def lfC8 : LocalFile := { key := "a", size := 3, ctime := 0, mtime := 0, hash := "m" }

/-- C8 fixture: the matching remote object. -/
def roC8 : RemoteObj := { name := "a", size := 3, modified := 0, md5 := "m" }

/-- C8 fixture: the `'='` record diff produces for the pair above. -/
def rC8out : Record := { minusRecord roC8 with state := '=', comment := [] }

/-- C9 fixture: quiet mode, no auto-confirm flags. -/
def flC9 : UpdateFlags := { quiet := true }

/-- C9 fixture: a local-only record. -/
def recC9 : Record := { state := '+' }

/-- C10 fixture: one `'='` record and one `'<'` record. -/
def recsC10 : List (String × Record) :=
  [("x", { state := '=' }), ("y", { state := '<' })]

end S3Sync

namespace S3Sync

/-! ## Helper lemmas about the dictionary operations -/

theorem mem_keysOf {a : String} {m : DiffMap} :
    a ∈ keysOf m ↔ ∃ r, (a, r) ∈ m := by
  constructor
  · intro h
    rcases List.mem_map.1 h with ⟨⟨x, y⟩, hp, he⟩
    dsimp only at he
    subst he
    exact ⟨y, hp⟩
  · rintro ⟨r, hr⟩
    exact List.mem_map.2 ⟨(a, r), hr, rfl⟩

theorem mem_insertRec {p : String × Record} {k : String} {r : Record} :
    ∀ {m : DiffMap}, p ∈ insertRec k r m → p = (k, r) ∨ p ∈ m := by
  intro m
  induction m with
  | nil =>
      intro h
      simp only [insertRec, List.mem_singleton] at h
      exact Or.inl h
  | cons q rest ih =>
      obtain ⟨k2, r2⟩ := q
      intro h
      by_cases hk : k2 = k
      · simp only [insertRec, if_pos hk, List.mem_cons] at h
        rcases h with h | h
        · exact Or.inl h
        · exact Or.inr (List.mem_cons_of_mem _ h)
      · simp only [insertRec, if_neg hk, List.mem_cons] at h
        rcases h with h | h
        · exact Or.inr (List.mem_cons.2 (Or.inl h))
        · rcases ih h with h2 | h2
          · exact Or.inl h2
          · exact Or.inr (List.mem_cons_of_mem _ h2)

theorem self_mem_insertRec {k : String} {r : Record} :
    ∀ {m : DiffMap}, (k, r) ∈ insertRec k r m := by
  intro m
  induction m with
  | nil => simp [insertRec]
  | cons q rest ih =>
      obtain ⟨k2, r2⟩ := q
      by_cases hk : k2 = k
      · simp [insertRec, if_pos hk]
      · simp only [insertRec, if_neg hk]
        exact List.mem_cons_of_mem _ ih

theorem mem_insertRec_of_ne {p : String × Record} {k : String} {r : Record} :
    ∀ {m : DiffMap}, p ∈ m → p.1 ≠ k → p ∈ insertRec k r m := by
  intro m
  induction m with
  | nil => intro h _; cases h
  | cons q rest ih =>
      obtain ⟨k2, r2⟩ := q
      intro h hne
      by_cases hk : k2 = k
      · simp only [insertRec, if_pos hk]
        rcases List.mem_cons.1 h with h | h
        · exact absurd (by rw [h]; exact hk) hne
        · exact List.mem_cons_of_mem _ h
      · simp only [insertRec, if_neg hk]
        rcases List.mem_cons.1 h with h | h
        · exact List.mem_cons.2 (Or.inl h)
        · exact List.mem_cons_of_mem _ (ih h hne)

theorem findRec_insertRec_ne {a k : String} {r : Record} :
    ∀ {m : DiffMap}, a ≠ k → findRec a (insertRec k r m) = findRec a m := by
  intro m
  induction m with
  | nil =>
      intro h
      simp only [insertRec, findRec]
      rw [if_neg (fun he : k = a => h he.symm)]
  | cons q rest ih =>
      obtain ⟨k2, r2⟩ := q
      intro h
      by_cases hk : k2 = k
      · simp only [insertRec, if_pos hk, findRec]
        rw [if_neg (fun he : k = a => h he.symm),
          if_neg (fun he : k2 = a => h (he.symm.trans hk))]
      · simp only [insertRec, if_neg hk, findRec]
        by_cases hq : k2 = a
        · rw [if_pos hq, if_pos hq]
        · rw [if_neg hq, if_neg hq, ih h]

theorem mem_eraseRec {p : String × Record} {k : String} {m : DiffMap}
    (h : p ∈ eraseRec k m) : p ∈ m ∧ p.1 ≠ k := by
  have h2 := List.mem_filter.1 h
  exact ⟨h2.1, by simpa using h2.2⟩

theorem mem_eraseRec_of {p : String × Record} {k : String} {m : DiffMap}
    (h : p ∈ m) (hne : p.1 ≠ k) : p ∈ eraseRec k m :=
  List.mem_filter.2 ⟨h, by simpa using hne⟩

theorem mem_eraseAll {p : String × Record} :
    ∀ {td : List String} {m : DiffMap}, p ∈ eraseAll td m → p ∈ m := by
  intro td
  induction td with
  | nil => intro m h; simpa [eraseAll] using h
  | cons t rest ih =>
      intro m h
      have h2 : p ∈ eraseRec t m := ih (by simpa [eraseAll] using h)
      exact (mem_eraseRec h2).1

theorem mem_eraseAll_of {p : String × Record} :
    ∀ {td : List String} {m : DiffMap}, p ∈ m → p.1 ∉ td → p ∈ eraseAll td m := by
  intro td
  induction td with
  | nil => intro m h _; simpa [eraseAll] using h
  | cons t rest ih =>
      intro m h hn
      have h1 : p ∈ eraseRec t m :=
        mem_eraseRec_of h (fun he => hn (by simp [he]))
      have h2 : p.1 ∉ rest := fun hr => hn (List.mem_cons_of_mem _ hr)
      simpa [eraseAll] using ih h1 h2

theorem mem_keysOf_insertRec {a k : String} {r : Record} {m : DiffMap} :
    a ∈ keysOf (insertRec k r m) ↔ a = k ∨ a ∈ keysOf m := by
  constructor
  · intro h
    rcases mem_keysOf.1 h with ⟨r2, hr2⟩
    rcases mem_insertRec hr2 with h2 | h2
    · exact Or.inl (by injection h2 with e1 _)
    · exact Or.inr (mem_keysOf.2 ⟨r2, h2⟩)
  · intro h
    rcases h with h | h
    · exact h ▸ mem_keysOf.2 ⟨r, self_mem_insertRec⟩
    · rcases mem_keysOf.1 h with ⟨r2, hr2⟩
      by_cases hk : a = k
      · exact hk ▸ mem_keysOf.2 ⟨r, self_mem_insertRec⟩
      · exact mem_keysOf.2 ⟨r2, mem_insertRec_of_ne hr2 hk⟩

theorem keysOf_insertRec_of_mem {k : String} {r : Record} :
    ∀ {m : DiffMap}, k ∈ keysOf m → keysOf (insertRec k r m) = keysOf m := by
  intro m
  induction m with
  | nil => intro h; cases h
  | cons q rest ih =>
      obtain ⟨k2, r2⟩ := q
      intro h
      by_cases hk : k2 = k
      · simp [insertRec, if_pos hk, keysOf, hk]
      · have hsplit : k = k2 ∨ k ∈ keysOf rest := by
          simpa [keysOf] using h
        have h2 : k ∈ keysOf rest := by
          rcases hsplit with h2 | h2
          · exact absurd h2 (fun he => hk he.symm)
          · exact h2
        have h3 := ih h2
        simp only [insertRec, if_neg hk, keysOf, List.map_cons]
        simp only [keysOf] at h3
        rw [h3]

theorem nodup_keysOf_insertRec {k : String} {r : Record} :
    ∀ {m : DiffMap}, (keysOf m).Nodup → (keysOf (insertRec k r m)).Nodup := by
  intro m
  induction m with
  | nil => intro _; simp [insertRec, keysOf]
  | cons q rest ih =>
      obtain ⟨k2, r2⟩ := q
      intro h
      have h' : (k2 :: keysOf rest).Nodup := by simpa [keysOf] using h
      have hnd := List.nodup_cons.1 h'
      by_cases hk : k2 = k
      · subst hk
        simp only [insertRec, if_pos rfl, keysOf, List.map_cons]
        exact List.nodup_cons.2 ⟨by simpa [keysOf] using hnd.1, by simpa [keysOf] using hnd.2⟩
      · simp only [insertRec, if_neg hk, keysOf, List.map_cons]
        refine List.nodup_cons.2 ⟨?_, ?_⟩
        · intro hmem
          rcases mem_keysOf_insertRec.1 (by simpa [keysOf] using hmem) with h3 | h3
          · exact hk h3
          · exact hnd.1 h3
        · have h4 := ih hnd.2
          simpa [keysOf] using h4

theorem nodup_keysOf_eraseRec {k : String} {m : DiffMap}
    (h : (keysOf m).Nodup) : (keysOf (eraseRec k m)).Nodup := by
  have hsub : List.Sublist (eraseRec k m) m := List.filter_sublist m
  have hsub2 : List.Sublist (keysOf (eraseRec k m)) (keysOf m) := hsub.map Prod.fst
  exact hsub2.nodup h

theorem mem_of_findRec {k : String} {r : Record} :
    ∀ {m : DiffMap}, findRec k m = some r → (k, r) ∈ m := by
  intro m
  induction m with
  | nil => intro h; cases h
  | cons q rest ih =>
      obtain ⟨k2, r2⟩ := q
      intro h
      by_cases hq : k2 = k
      · simp only [findRec, if_pos hq] at h
        have h2 : r2 = r := Option.some.inj h
        exact List.mem_cons.2 (Or.inl (by rw [hq, h2]))
      · simp only [findRec, if_neg hq] at h
        exact List.mem_cons_of_mem _ (ih h)

theorem findRec_eq_of_mem_nodup {k : String} {r : Record} :
    ∀ {m : DiffMap}, (keysOf m).Nodup → (k, r) ∈ m → findRec k m = some r := by
  intro m
  induction m with
  | nil => intro _ h; cases h
  | cons q rest ih =>
      obtain ⟨k2, r2⟩ := q
      intro hnd h
      have h' : (k2 :: keysOf rest).Nodup := by simpa [keysOf] using hnd
      rcases List.mem_cons.1 h with h2 | h2
      · injection h2 with e1 e2
        subst e1
        subst e2
        simp [findRec]
      · have hq : k2 ≠ k := by
          intro he
          refine (List.nodup_cons.1 h').1 ?_
          rw [he]
          exact mem_keysOf.2 ⟨r, h2⟩
        simp only [findRec, if_neg hq]
        exact ih (List.nodup_cons.1 h').2 h2

theorem findRec_isSome_of_mem_keys {k : String} :
    ∀ {m : DiffMap}, k ∈ keysOf m → (findRec k m).isSome := by
  intro m
  induction m with
  | nil => intro h; cases h
  | cons q rest ih =>
      obtain ⟨k2, r2⟩ := q
      intro h
      by_cases hq : k2 = k
      · simp [findRec, hq]
      · simp only [findRec, if_neg hq]
        have hsplit : k = k2 ∨ k ∈ keysOf rest := by simpa [keysOf] using h
        rcases hsplit with h2 | h2
        · exact absurd h2 (fun he => hq he.symm)
        · exact ih h2

/-! ## Facts about the comparison step -/

theorem notEqualUpdate_state (lf : LocalFile) (r : Record) :
    (notEqualUpdate lf r).state = '>' ∨ (notEqualUpdate lf r).state = '<' := by
  by_cases hc : ((⌊lf.ctime⌋ : ℤ) : ℚ) > r.modified + 4 * 3600
  · exact Or.inl (by simp [notEqualUpdate, hc])
  · exact Or.inr (by simp [notEqualUpdate, hc])

theorem notEqualUpdate_state_ne_eq (lf : LocalFile) (r : Record) :
    (notEqualUpdate lf r).state ≠ '=' := by
  rcases notEqualUpdate_state lf r with h | h <;> rw [h] <;> decide

theorem compareRecord_state_cases {skipMd5 : Bool} {lf : LocalFile} {r r2 : Record}
    (h : compareRecord skipMd5 lf r = Except.ok r2) :
    r2.state = '=' ∨ r2.state = '>' ∨ r2.state = '<' := by
  cases hsz : r.size with
  | none =>
      simp only [compareRecord, hsz] at h
      exact Except.noConfusion h
  | some rsize =>
      simp only [compareRecord, hsz] at h
      by_cases h1 : lf.size ≠ rsize
      · rw [if_pos h1] at h
        by_cases h0 : lf.size = 0
        · rw [if_pos h0] at h
          cases h
        · rw [if_neg h0] at h
          injection h with h2
          subst h2
          exact (notEqualUpdate_state lf _).elim
            (fun h3 => Or.inr (Or.inl h3)) (fun h3 => Or.inr (Or.inr h3))
      · rw [if_neg h1] at h
        by_cases hmd : (!skipMd5 && decide (lf.hash ≠ r.md5)) = true
        · rw [if_pos hmd] at h
          injection h with h2
          subst h2
          exact (notEqualUpdate_state lf _).elim
            (fun h3 => Or.inr (Or.inl h3)) (fun h3 => Or.inr (Or.inr h3))
        · rw [if_neg hmd] at h
          injection h with h2
          subst h2
          exact Or.inl rfl

theorem compareRecord_eq_comment {skipMd5 : Bool} {lf : LocalFile} {r r2 : Record}
    (h : compareRecord skipMd5 lf r = Except.ok r2) (hs : r2.state = '=') :
    r2.comment = [] := by
  cases hsz : r.size with
  | none =>
      simp only [compareRecord, hsz] at h
      exact Except.noConfusion h
  | some rsize =>
      simp only [compareRecord, hsz] at h
      by_cases h1 : lf.size ≠ rsize
      · rw [if_pos h1] at h
        by_cases h0 : lf.size = 0
        · rw [if_pos h0] at h
          cases h
        · rw [if_neg h0] at h
          injection h with h2
          subst h2
          exact absurd hs (notEqualUpdate_state_ne_eq lf _)
      · rw [if_neg h1] at h
        by_cases hmd : (!skipMd5 && decide (lf.hash ≠ r.md5)) = true
        · rw [if_pos hmd] at h
          injection h with h2
          subst h2
          exact absurd hs (notEqualUpdate_state_ne_eq lf _)
        · rw [if_neg hmd] at h
          injection h with h2
          subst h2
          rfl

theorem compareStep_mem {modes : List Char} {skipMd5 : Bool} {m m2 : DiffMap}
    {lf : LocalFile} {p : String × Record}
    (h : compareStep modes skipMd5 m lf = Except.ok m2) (hp : p ∈ m2) :
    p ∈ m
    ∨ (∃ r r2, findRec lf.key m = some r ∧ compareRecord skipMd5 lf r = Except.ok r2
        ∧ r2.state ∈ modes ∧ p = (lf.key, r2))
    ∨ (('+' ∈ modes ∨ 'r' ∈ modes) ∧ p = (lf.key, plusRecord lf)) := by
  cases hf : findRec lf.key m with
  | some r =>
      simp only [compareStep, hf] at h
      cases hc : compareRecord skipMd5 lf r with
      | error e =>
          simp only [hc] at h
          exact Except.noConfusion h
      | ok r2 =>
          simp only [hc] at h
          by_cases hm : r2.state ∈ modes
          · rw [if_pos hm] at h
            have hm2 := Except.ok.inj h
            rw [← hm2] at hp
            rcases mem_insertRec hp with h2 | h2
            · exact Or.inr (Or.inl ⟨r, r2, rfl, hc, hm, h2⟩)
            · exact Or.inl h2
          · rw [if_neg hm] at h
            have hm2 := Except.ok.inj h
            rw [← hm2] at hp
            exact Or.inl (mem_eraseRec hp).1
  | none =>
      simp only [compareStep, hf] at h
      by_cases hpm : '+' ∈ modes ∨ 'r' ∈ modes
      · rw [if_pos hpm] at h
        have hm2 := Except.ok.inj h
        rw [← hm2] at hp
        rcases mem_insertRec hp with h2 | h2
        · exact Or.inr (Or.inr ⟨hpm, h2⟩)
        · exact Or.inl h2
      · rw [if_neg hpm] at h
        have hm2 := Except.ok.inj h
        rw [← hm2] at hp
        exact Or.inl hp

theorem compareAll_pres (Q : String × Record → Prop) {modes : List Char} {skipMd5 : Bool} :
    ∀ {locals : List LocalFile} {m m2 : DiffMap},
      compareAll modes skipMd5 locals m = Except.ok m2 →
      (∀ p ∈ m, Q p) →
      (∀ lf r r2, compareRecord skipMd5 lf r = Except.ok r2 → r2.state ∈ modes →
        Q (lf.key, r2)) →
      (∀ lf, ('+' ∈ modes ∨ 'r' ∈ modes) → Q (lf.key, plusRecord lf)) →
      ∀ p ∈ m2, Q p := by
  intro locals
  induction locals with
  | nil =>
      intro m m2 h hold _ _ p hp
      simp only [compareAll] at h
      have e := Except.ok.inj h
      subst e
      exact hold p hp
  | cons lf rest ih =>
      intro m m2 h hold hcmp hplus p hp
      simp only [compareAll] at h
      cases hs : compareStep modes skipMd5 m lf with
      | error e =>
          simp only [hs] at h
          exact Except.noConfusion h
      | ok mm =>
          simp only [hs] at h
          refine ih h ?_ hcmp hplus p hp
          intro q hq
          rcases compareStep_mem hs hq with h2 | h2 | h2
          · exact hold q h2
          · rcases h2 with ⟨r, r2, _, hc, hm, he⟩
            exact he ▸ hcmp lf r r2 hc hm
          · exact h2.2 ▸ hplus lf h2.1

/-! ## Facts about seeding from the remote listing -/

theorem mem_seedRemote {p : String × Record} :
    ∀ {ros : List RemoteObj} {m : DiffMap}, p ∈ seedRemote ros m →
      p ∈ m ∨ ∃ ro, ro ∈ ros ∧ p = (lowerStr ro.name, minusRecord ro) := by
  intro ros
  induction ros with
  | nil => intro m h; exact Or.inl (by simpa [seedRemote] using h)
  | cons ro rest ih =>
      intro m h
      have h2 := ih (by simpa [seedRemote] using h)
      rcases h2 with h2 | h2
      · rcases mem_insertRec h2 with h3 | h3
        · exact Or.inr ⟨ro, List.mem_cons_self _ _, h3⟩
        · exact Or.inl h3
      · rcases h2 with ⟨ro2, hro2, he⟩
        exact Or.inr ⟨ro2, List.mem_cons_of_mem _ hro2, he⟩

theorem seedRemote_keys_mono {a : String} :
    ∀ {ros : List RemoteObj} {m : DiffMap},
      a ∈ keysOf m → a ∈ keysOf (seedRemote ros m) := by
  intro ros
  induction ros with
  | nil => intro m h; simpa [seedRemote] using h
  | cons ro rest ih =>
      intro m h
      simp only [seedRemote]
      exact ih (mem_keysOf_insertRec.2 (Or.inr h))

theorem seedRemote_keys_names {ro : RemoteObj} :
    ∀ {ros : List RemoteObj} {m : DiffMap}, ro ∈ ros →
      lowerStr ro.name ∈ keysOf (seedRemote ros m) := by
  intro ros
  induction ros with
  | nil => intro m h; cases h
  | cons ro2 rest ih =>
      intro m h
      rcases List.mem_cons.1 h with h2 | h2
      · subst h2
        simp only [seedRemote]
        exact seedRemote_keys_mono (mem_keysOf_insertRec.2 (Or.inl rfl))
      · simp only [seedRemote]
        exact ih h2

theorem seedRemote_nodup :
    ∀ {ros : List RemoteObj} {m : DiffMap},
      (keysOf m).Nodup → (keysOf (seedRemote ros m)).Nodup := by
  intro ros
  induction ros with
  | nil => intro m h; simpa [seedRemote] using h
  | cons ro rest ih =>
      intro m h
      simp only [seedRemote]
      exact ih (nodup_keysOf_insertRec h)

/-! ## Facts about the rename pass -/

theorem findRenameTarget_mem {nd : Record} {n : String} {d : Record} :
    ∀ {m : DiffMap}, findRenameTarget nd m = some (n, d) →
      (n, d) ∈ m ∧ renameMatches nd d = true := by
  intro m
  induction m with
  | nil => intro h; cases h
  | cons q rest ih =>
      obtain ⟨k2, r2⟩ := q
      intro h
      by_cases hm : renameMatches nd r2 = true
      · simp only [findRenameTarget, if_pos hm] at h
        injection h with h2
        injection h2 with e1 e2
        subst e1
        subst e2
        exact ⟨List.mem_cons_self _ _, hm⟩
      · simp only [findRenameTarget, if_neg hm] at h
        rcases ih h with ⟨h2, h3⟩
        exact ⟨List.mem_cons_of_mem _ h2, h3⟩

theorem findRenameTarget_first {nd : Record} {n : String} {d : Record} :
    ∀ {m : DiffMap}, findRenameTarget nd m = some (n, d) →
      ∃ pre post, m = pre ++ (n, d) :: post
        ∧ (∀ q ∈ pre, renameMatches nd q.2 = false)
        ∧ renameMatches nd d = true := by
  intro m
  induction m with
  | nil => intro h; cases h
  | cons q rest ih =>
      obtain ⟨k2, r2⟩ := q
      intro h
      by_cases hm : renameMatches nd r2 = true
      · simp only [findRenameTarget, if_pos hm] at h
        injection h with h2
        injection h2 with e1 e2
        subst e1
        subst e2
        exact ⟨[], rest, rfl, by simp, hm⟩
      · simp only [findRenameTarget, if_neg hm] at h
        rcases ih h with ⟨pre, post, he, hall, hmt⟩
        refine ⟨(k2, r2) :: pre, post, by rw [he]; rfl, ?_, hmt⟩
        intro q hq
        rcases List.mem_cons.1 hq with h2 | h2
        · rw [h2]
          simpa using hm
        · exact hall q h2

theorem renameScan_pres (Q : String × Record → Prop)
    (hren : ∀ n d k nd, Q (n, d) → Q (n, renameUpdate d k nd)) :
    ∀ {ks : List String} {m : DiffMap} {td : List String},
      (∀ p ∈ m, Q p) → ∀ p ∈ (renameScan ks m td).1, Q p := by
  intro ks
  induction ks with
  | nil =>
      intro m td hold p hp
      exact hold p (by simpa [renameScan] using hp)
  | cons k rest ih =>
      intro m td hold p hp
      cases hf : findRec k m with
      | none =>
          simp only [renameScan, hf] at hp
          exact ih hold p hp
      | some nd =>
          simp only [renameScan, hf] at hp
          by_cases hs : nd.state = '+'
          · rw [if_pos hs] at hp
            cases ht : findRenameTarget nd m with
            | none =>
                simp only [ht] at hp
                exact ih hold p hp
            | some q =>
                obtain ⟨n, d⟩ := q
                simp only [ht] at hp
                refine ih ?_ p hp
                intro q2 hq2
                rcases mem_insertRec hq2 with h2 | h2
                · rcases findRenameTarget_mem ht with ⟨hmem, _⟩
                  exact h2 ▸ hren n d k nd (hold _ hmem)
                · exact hold q2 h2
          · rw [if_neg hs] at hp
            exact ih hold p hp

/-! ## Facts about the update loop -/

theorem updateStep_eq_state {fl : UpdateFlags} {r : Record}
    {perm : List (Char × String)} {inputs : List (String × Bool)}
    (h : r.state = '=') :
    updateStep fl r perm inputs = ⟨StepOut.countEq, perm, inputs, false, false⟩ := by
  simp [updateStep, h]

theorem updateStep_not_fallthrough {fl : UpdateFlags} {r : Record}
    {perm : List (Char × String)} {inputs : List (String × Bool)}
    (h : r.state = '+' ∨ r.state = '-' ∨ r.state = '<' ∨ r.state = '>' ∨ r.state = 'r') :
    (updateStep fl r perm inputs).out = StepOut.skip
    ∨ ∃ a st, (updateStep fl r perm inputs).out = StepOut.runAct a st := by
  rcases h with h | h | h | h | h
  · by_cases hcu : fl.confirm_upload
    · exact Or.inr ⟨"upload", '+', by simp [updateStep, h, hcu]⟩
    · by_cases hcd : fl.confirm_delete_local
      · exact Or.inr ⟨"delete_local", '+', by simp [updateStep, h, hcu, hcd]⟩
      · rcases hc : confirm fl.quiet '+' true perm inputs with ⟨ans, p2, i2, pr⟩
        by_cases hans : ans = "n"
        · exact Or.inl (by simp [updateStep, h, hcu, hcd, hc, hans])
        · exact Or.inr ⟨ans, '+', by simp [updateStep, h, hcu, hcd, hc, hans]⟩
  · by_cases hcd : fl.confirm_download
    · exact Or.inr ⟨"download", '-', by simp [updateStep, h, hcd]⟩
    · by_cases hcr : fl.confirm_delete_remote
      · exact Or.inr ⟨"delete_remote", '-', by simp [updateStep, h, hcd, hcr]⟩
      · rcases hc : confirm fl.quiet '-' true perm inputs with ⟨ans, p2, i2, pr⟩
        by_cases hans : ans = "n"
        · exact Or.inl (by simp [updateStep, h, hcd, hcr, hc, hans])
        · exact Or.inr ⟨ans, '-', by simp [updateStep, h, hcd, hcr, hc, hans]⟩
  · by_cases hfu : fl.force_upload
    · by_cases hcru : fl.confirm_replace_upload
      · exact Or.inr ⟨"replace_upload", '>', by simp [updateStep, h, hfu, hcru]⟩
      · rcases hc : confirm fl.quiet '>' true perm inputs with ⟨ans, p2, i2, pr⟩
        by_cases hans : ans = "n"
        · exact Or.inl (by simp [updateStep, h, hfu, hcru, hc, hans])
        · exact Or.inr ⟨"replace_upload", '>',
            by simp [updateStep, h, hfu, hcru, hc, hans]⟩
    · by_cases hcrd : fl.confirm_replace_download
      · exact Or.inr ⟨"replace_download", '<', by simp [updateStep, h, hfu, hcrd]⟩
      · rcases hc : confirm fl.quiet '<' true perm inputs with ⟨ans, p2, i2, pr⟩
        by_cases hans : ans = "n"
        · exact Or.inl (by simp [updateStep, h, hfu, hcrd, hc, hans])
        · exact Or.inr ⟨"replace_download", '<',
            by simp [updateStep, h, hfu, hcrd, hc, hans]⟩
  · by_cases hcru : fl.confirm_replace_upload
    · exact Or.inr ⟨"replace_upload", '>', by simp [updateStep, h, hcru]⟩
    · rcases hc : confirm fl.quiet '>' true perm inputs with ⟨ans, p2, i2, pr⟩
      by_cases hans : ans = "n"
      · exact Or.inl (by simp [updateStep, h, hcru, hc, hans])
      · exact Or.inr ⟨"replace_upload", '>', by simp [updateStep, h, hcru, hc, hans]⟩
  · by_cases hfu : fl.force_upload
    · by_cases hcru : fl.confirm_replace_upload
      · exact Or.inr ⟨"replace_upload", '>', by simp [updateStep, h, hfu, hcru]⟩
      · rcases hc : confirm fl.quiet '>' true perm inputs with ⟨ans, p2, i2, pr⟩
        by_cases hans : ans = "n"
        · exact Or.inl (by simp [updateStep, h, hfu, hcru, hc, hans])
        · exact Or.inr ⟨"replace_upload", '>',
            by simp [updateStep, h, hfu, hcru, hc, hans]⟩
    · by_cases hcrr : fl.confirm_rename_remote
      · exact Or.inr ⟨"rename_remote", 'r', by simp [updateStep, h, hfu, hcrr]⟩
      · rcases hc : confirm fl.quiet 'r' true perm inputs with ⟨ans, p2, i2, pr⟩
        by_cases hans : ans = "n"
        · exact Or.inl (by simp [updateStep, h, hfu, hcrr, hc, hans])
        · exact Or.inr ⟨"rename_remote", 'r',
            by simp [updateStep, h, hfu, hcrr, hc, hans]⟩

/-! ## Further facts about the rename pass and deletions -/

theorem renameScan_toDel_mono :
    ∀ {ks : List String} {m : DiffMap} {td : List String} {x : String},
      x ∈ td → x ∈ (renameScan ks m td).2 := by
  intro ks
  induction ks with
  | nil => intro m td x h; simpa [renameScan] using h
  | cons k rest ih =>
      intro m td x h
      cases hf : findRec k m with
      | none =>
          simp only [renameScan, hf]
          exact ih h
      | some nd =>
          simp only [renameScan, hf]
          by_cases hs : nd.state = '+'
          · rw [if_pos hs]
            cases ht : findRenameTarget nd m with
            | none =>
                simp only [ht]
                exact ih h
            | some q =>
                obtain ⟨n, d⟩ := q
                simp only [ht]
                exact ih (List.mem_append_left _ h)
          · rw [if_neg hs]
            exact ih h

theorem not_mem_td_of_mem_eraseAll {p : String × Record} :
    ∀ {td : List String} {m : DiffMap}, p ∈ eraseAll td m → p.1 ∉ td := by
  intro td
  induction td with
  | nil => intro m _ h; cases h
  | cons t rest ih =>
      intro m h hmem
      rcases List.mem_cons.1 hmem with h2 | h2
      · have h3 : p ∈ eraseRec t m := mem_eraseAll (by simpa [eraseAll] using h)
        exact (mem_eraseRec h3).2 h2
      · exact ih (by simpa [eraseAll] using h) h2

theorem findRec_eraseAll_of_mem_td {k : String} {td : List String} {m : DiffMap}
    (h : k ∈ td) : findRec k (eraseAll td m) = none := by
  cases hf : findRec k (eraseAll td m) with
  | none => rfl
  | some r =>
      have h2 := mem_of_findRec hf
      exact absurd h (not_mem_td_of_mem_eraseAll h2)

/-! ## Claim theorems -/

/-- C1 (counterexample): in the size-mismatch branch, the code computes
`round(remote_size / local_size * 100, 2)`, the inverse of the claimed
`round(L/R*100, 2)`.  At local size `L = 50` and remote size `R = 100` the
comment carries `200.0`, while the claim predicts `50.0`. -/
theorem c1_size_pct_counterexample :
    compareRecord false lfC1 (minusRecord roC1) = Except.ok rC1out
    ∧ rC1out.comment.get? 0
        = some (Comment.sizePct (round2 (((100 : ℕ) : ℚ) / ((50 : ℕ) : ℚ) * 100)))
    ∧ round2 (((100 : ℕ) : ℚ) / ((50 : ℕ) : ℚ) * 100) = 200
    ∧ round2 (((50 : ℕ) : ℚ) / ((100 : ℕ) : ℚ) * 100) = 50
    ∧ (200 : ℚ) ≠ 50 := by
  refine ⟨rfl, rfl, ?_, ?_, by norm_num⟩
  · norm_num [round2]
  · norm_num [round2]

/-- C1 (amended): for local size `L ≠ R` the percentage appended to the
comment equals `round(R/L*100, 2)` (the inverse ratio); when `R = 0` (hence
`L > 0`) this value is `0` because the numerator is zero — a division by
`L` is still performed; and when `L = 0` with `R ≠ 0` the comparison raises
a `ZeroDivisionError` instead of producing a comment. -/
theorem c1_size_pct_amended (skipMd5 : Bool) (lf : LocalFile) (r : Record) (rsize : ℕ)
    (hsz : r.size = some rsize) (hne : lf.size ≠ rsize) :
    (∀ r2, lf.size ≠ 0 → compareRecord skipMd5 lf r = Except.ok r2 →
      r2.comment.get? r.comment.length
        = some (Comment.sizePct (round2 ((rsize : ℚ) / (lf.size : ℚ) * 100))))
    ∧ (rsize = 0 → round2 ((rsize : ℚ) / (lf.size : ℚ) * 100) = 0)
    ∧ (lf.size = 0 → compareRecord skipMd5 lf r = Except.error "ZeroDivisionError") := by
  refine ⟨?_, ?_, ?_⟩
  · intro r2 h0 hcr
    simp only [compareRecord, hsz] at hcr
    rw [if_pos hne, if_neg h0] at hcr
    injection hcr with h2
    subst h2
    simp only [notEqualUpdate]
    rw [List.append_assoc, List.get?_append_right (le_refl _)]
    simp
  · intro h0
    subst h0
    norm_num [round2]
  · intro h0
    simp only [compareRecord, hsz]
    rw [if_pos hne, if_pos h0]

/-- Witness for `c1_size_pct_amended` at `L = 50, R = 100` (first part)
and `L = 10, R = 0` (zero-remote part). -/
theorem c1_size_pct_amended_witness :
    rC1out.comment.get? 0
      = some (Comment.sizePct (round2 (((100 : ℕ) : ℚ) / ((50 : ℕ) : ℚ) * 100)))
    ∧ round2 (((0 : ℕ) : ℚ) / ((10 : ℕ) : ℚ) * 100) = 0 := by
  constructor
  · exact (c1_size_pct_amended false lfC1 (minusRecord roC1) 100 rfl
      (by decide)).1 rC1out (by decide) rfl
  · exact (c1_size_pct_amended false lfC1z (minusRecord roC1z) 0 rfl
      (by decide)).2.1 rfl

/-- C3: for every pair of inventories and every requested mode set, every
record in the map returned by diff has a state character in the mode set. -/
theorem c3_mode_filter (ft : String → Bool) (locals : List LocalFile)
    (remotes : List RemoteObj) (modes : List Char) (skipMd5 : Bool)
    (m : DiffMap) (h : onDiff ft locals remotes modes skipMd5 = Except.ok m) :
    ∀ p ∈ m, p.2.state ∈ modes := by
  intro p hp
  simp only [onDiff] at h
  cases hc : compareAll modes skipMd5 (localInventory ft locals)
      (seedRemote (remoteInventory ft remotes) []) with
  | error e =>
      simp only [hc] at h
      exact Except.noConfusion h
  | ok m1 =>
      simp only [hc] at h
      injection h with h2
      rw [← h2] at hp
      by_cases hfil : '-' ∉ modes ∨ '+' ∉ modes
      · rw [if_pos hfil] at hp
        simpa using (List.mem_filter.1 hp).2
      · rw [if_neg hfil] at hp
        push_neg at hfil
        have hm1 : ∀ q ∈ m1, q.2.state ∈ modes := by
          refine compareAll_pres (fun q => q.2.state ∈ modes) hc ?_ ?_ ?_
          · intro q hq
            rcases mem_seedRemote hq with h3 | ⟨ro, _, he⟩
            · cases h3
            · rw [he]
              exact hfil.1
          · intro lf r r2 _ hm
            exact hm
          · intro lf _
            exact hfil.2
        by_cases hr : 'r' ∈ modes
        · rw [if_pos hr] at hp
          refine renameScan_pres (fun q => q.2.state ∈ modes) ?_ hm1 p (mem_eraseAll hp)
          intro n d k nd _
          exact hr
        · rw [if_neg hr] at hp
          exact hm1 p hp

/-- Witness for `c3_mode_filter`: diff of an empty local tree against one
remote object with mode set `-`. -/
theorem c3_mode_filter_witness : (minusRecord roC3).state ∈ (['-'] : List Char) := by
  exact c3_mode_filter ftAll [] [roC3] ['-'] false
    [("a", minusRecord roC3)] rfl ("a", minusRecord roC3) (List.mem_singleton.2 rfl)

/-- C5: when the size or hash comparison fails, the state is `'>'` exactly
when the local modification time (truncated to seconds) exceeds the remote
modification time shifted by the fixed `+4h` offset, else `'<'`; and in the
update loop the force-upload override takes precedence: a record whose
timestamps said `'<'` is dispatched as a `'>'` replace-upload. -/
theorem c5_direction :
    (∀ (skipMd5 : Bool) (lf : LocalFile) (r : Record) (rsize : ℕ) (r2 : Record),
      r.size = some rsize →
      ((lf.size ≠ rsize ∧ lf.size ≠ 0)
        ∨ (lf.size = rsize ∧ skipMd5 = false ∧ lf.hash ≠ r.md5)) →
      compareRecord skipMd5 lf r = Except.ok r2 →
      r2.state = if ((⌊lf.ctime⌋ : ℤ) : ℚ) > r.modified + 4 * 3600 then '>' else '<')
    ∧ (∀ (fl : UpdateFlags) (r : Record) (perm : List (Char × String))
        (inputs : List (String × Bool)),
      fl.force_upload = true → fl.confirm_replace_upload = true → r.state = '<' →
      updateStep fl r perm inputs
        = ⟨StepOut.runAct "replace_upload" '>', perm, inputs, false, false⟩) := by
  constructor
  · intro skipMd5 lf r rsize r2 hsz hfail hcr
    simp only [compareRecord, hsz] at hcr
    rcases hfail with ⟨hne, h0⟩ | ⟨heq, hskip, hmd⟩
    · rw [if_pos hne, if_neg h0] at hcr
      injection hcr with h2
      subst h2
      simp [notEqualUpdate]
    · have hne2 : ¬lf.size ≠ rsize := by simp [heq]
      rw [if_neg hne2] at hcr
      have hcond : (!skipMd5 && decide (lf.hash ≠ r.md5)) = true := by
        subst hskip
        simp [hmd]
      rw [if_pos hcond] at hcr
      injection hcr with h2
      subst h2
      simp [notEqualUpdate]
  · intro fl r perm inputs h1 h2 h3
    simp [updateStep, h1, h2, h3]

/-- Witness for `c5_direction`: size mismatch 1 vs 2 with equal-zero
timestamps resolves to `'<'`; a `'<'` record under `--force-upload` with
`--confirm-replace-upload` becomes a replace-upload. -/
theorem c5_direction_witness :
    rC5out.state = '<'
    ∧ updateStep flC5 recC5 [] []
      = ⟨StepOut.runAct "replace_upload" '>', [], [], false, false⟩ := by
  have h1 := c5_direction.1 false lfC5 (minusRecord roC5) 2 rC5out rfl
    (Or.inl ⟨by decide, by decide⟩) rfl
  have h2 := c5_direction.2 flC5 recC5 [] [] rfl rfl rfl
  refine ⟨?_, h2⟩
  rw [h1]
  norm_num [lfC5, roC5, minusRecord]

/-- C7: the rename-remote task raises when the store-side copy returns no
new key and then leaves the source key in place; the source is deleted
only after a successful copy. -/
theorem c7_rename_copy_then_delete (copyOk : Bool) (src dst : String)
    (store : List String) :
    (copyOk = false →
      renameRemoteHandler copyOk src dst store
        = { store := store, comment := none, raised := true }
      ∧ (src ∈ store → src ∈ (renameRemoteHandler copyOk src dst store).store))
    ∧ (copyOk = true →
      renameRemoteHandler copyOk src dst store
        = { store := s3delete (store ++ [dst]) src,
            comment := some ["renamed"], raised := false }) := by
  constructor
  · intro h
    subst h
    exact ⟨rfl, fun h2 => h2⟩
  · intro h
    subst h
    rfl

/-- Witness for `c7_rename_copy_then_delete` on a one-key bucket. -/
theorem c7_rename_copy_then_delete_witness :
    renameRemoteHandler false "s" "d" ["s"]
      = { store := ["s"], comment := none, raised := true }
    ∧ renameRemoteHandler true "s" "d" ["s"]
      = { store := s3delete (["s"] ++ ["d"]) "s",
          comment := some ["renamed"], raised := false }
    ∧ s3delete (["s"] ++ ["d"]) "s" = ["d"] := by
  exact ⟨((c7_rename_copy_then_delete false "s" "d" ["s"]).1 rfl).1,
    (c7_rename_copy_then_delete true "s" "d" ["s"]).2 rfl, by decide⟩

/-- C8: a record that diff returns with state `'='` has an empty comment
list, and in the update loop such a record is only counted — no action is
assigned and the confirmation gate is never invoked. -/
theorem c8_equal_state_inert :
    (∀ (ft : String → Bool) (locals : List LocalFile) (remotes : List RemoteObj)
      (modes : List Char) (skipMd5 : Bool) (m : DiffMap),
      onDiff ft locals remotes modes skipMd5 = Except.ok m →
      ∀ p ∈ m, p.2.state = '=' → p.2.comment = [])
    ∧ (∀ (fl : UpdateFlags) (r : Record) (perm : List (Char × String))
        (inputs : List (String × Bool)), r.state = '=' →
      updateStep fl r perm inputs = ⟨StepOut.countEq, perm, inputs, false, false⟩) := by
  constructor
  · intro ft locals remotes modes skipMd5 m h p hp
    simp only [onDiff] at h
    cases hc : compareAll modes skipMd5 (localInventory ft locals)
        (seedRemote (remoteInventory ft remotes) []) with
    | error e =>
        simp only [hc] at h
        exact Except.noConfusion h
    | ok m1 =>
        simp only [hc] at h
        injection h with h2
        rw [← h2] at hp
        have hm1 : ∀ q ∈ m1, q.2.state = '=' → q.2.comment = [] := by
          refine compareAll_pres (fun q => q.2.state = '=' → q.2.comment = []) hc ?_ ?_ ?_
          · intro q hq
            rcases mem_seedRemote hq with h3 | ⟨ro, _, he⟩
            · cases h3
            · rw [he]
              intro hs
              simp [minusRecord] at hs
          · intro lf r r2 hcr _
            exact fun hs => compareRecord_eq_comment hcr hs
          · intro lf _
            intro hs
            simp [plusRecord] at hs
        have hm2 : ∀ q ∈ (if 'r' ∈ modes then renamePass m1 else m1),
            q.2.state = '=' → q.2.comment = [] := by
          by_cases hr : 'r' ∈ modes
          · rw [if_pos hr]
            intro q hq
            refine renameScan_pres (fun q => q.2.state = '=' → q.2.comment = []) ?_ hm1
              q (mem_eraseAll hq)
            intro n d k nd _
            intro hs
            simp [renameUpdate] at hs
          · rw [if_neg hr]
            exact hm1
        by_cases hfil : '-' ∉ modes ∨ '+' ∉ modes
        · rw [if_pos hfil] at hp
          exact hm2 p (List.mem_filter.1 hp).1
        · rw [if_neg hfil] at hp
          exact hm2 p hp
  · intro fl r perm inputs h
    exact updateStep_eq_state h

/-- Witness for `c8_equal_state_inert`: an equal local/remote pair
produces the `'='` record `rC8out` with empty comment, and the update
loop only counts it. -/
theorem c8_equal_state_inert_witness :
    rC8out.comment = []
    ∧ updateStep ({} : UpdateFlags) rC8out [] []
      = ⟨StepOut.countEq, [], [], false, false⟩ := by
  refine ⟨?_, c8_equal_state_inert.2 ({} : UpdateFlags) rC8out [] [] rfl⟩
  exact c8_equal_state_inert.1 ftAll [lfC8] [roC8] modesAll false
    [("a", rC8out)] rfl ("a", rC8out) (List.mem_singleton.2 rfl) rfl

/-- C9: a `'+'` record in quiet mode with neither `--confirm-upload` nor
`--confirm-delete-local` is skipped: the gate is invoked but returns the
implicit `"n"` without prompting, no action is assigned, and the update
loop leaves the processed counter and the confirmation state untouched. -/
theorem c9_quiet_plus_skip (fl : UpdateFlags) (r : Record) (nm : String)
    (perm : List (Char × String)) (inputs : List (String × Bool))
    (hq : fl.quiet = true) (hcu : fl.confirm_upload = false)
    (hcd : fl.confirm_delete_local = false) (hst : r.state = '+') :
    updateStep fl r perm inputs = ⟨StepOut.skip, perm, inputs, true, false⟩
    ∧ ∀ (threadMax : Nat) (rest : List (String × Record)) (acc : Nat),
        onUpdateLoop fl threadMax ((nm, r) :: rest) perm inputs acc
          = onUpdateLoop fl threadMax rest perm inputs acc := by
  have hstep : updateStep fl r perm inputs = ⟨StepOut.skip, perm, inputs, true, false⟩ := by
    simp [updateStep, hst, hcu, hcd, confirm, hq]
  refine ⟨hstep, ?_⟩
  intro threadMax rest acc
  simp only [onUpdateLoop, hstep]

/-- Witness for `c9_quiet_plus_skip` at a concrete `'+'` record. -/
theorem c9_quiet_plus_skip_witness :
    updateStep flC9 recC9 [] [] = ⟨StepOut.skip, [], [], true, false⟩
    ∧ onUpdateLoop flC9 2 [("f", recC9)] [] [] 0 = onUpdateLoop flC9 2 [] [] [] 0 := by
  have h := c9_quiet_plus_skip flC9 recC9 "f" [] [] rfl rfl rfl rfl
  exact ⟨h.1, h.2 2 [] 0⟩

/-- C10: with the thread pool enabled (`thread_max_count > 1`) the final
processed count equals exactly the number of `'='` records — each `'='`
record increments it by one although no action runs for it, and the
return values of actions executed on worker threads are never added. -/
theorem c10_processed_count (fl : UpdateFlags) (threadMax : Nat) :
    ∀ (records : List (String × Record)) (perm : List (Char × String))
      (inputs : List (String × Bool)) (acc : Nat),
      threadMax > 1 →
      (∀ p ∈ records, p.2.state = '=' ∨ p.2.state = '+' ∨ p.2.state = '-'
        ∨ p.2.state = '<' ∨ p.2.state = '>' ∨ p.2.state = 'r') →
      onUpdateLoop fl threadMax records perm inputs acc
        = some (acc + records.countP (fun p => p.2.state = '=')) := by
  intro records
  induction records with
  | nil =>
      intro perm inputs acc _ _
      simp [onUpdateLoop]
  | cons q rest ih =>
      obtain ⟨nm, r⟩ := q
      intro perm inputs acc hthr hst
      by_cases he : r.state = '='
      · have hstep := @updateStep_eq_state fl r perm inputs he
        simp only [onUpdateLoop, hstep]
        rw [ih perm inputs (acc + 1) hthr (fun p hp => hst p (List.mem_cons_of_mem _ hp))]
        congr 1
        rw [List.countP_cons]
        simp [he]
        omega
      · have hvalid := hst (nm, r) (List.mem_cons_self _ _)
        have hv2 : r.state = '+' ∨ r.state = '-' ∨ r.state = '<' ∨ r.state = '>'
            ∨ r.state = 'r' := by
          rcases hvalid with h | h
          · exact absurd h he
          · exact h
        have hcount : (List.countP (fun p => decide (p.2.state = '=')) ((nm, r) :: rest))
            = List.countP (fun p => decide (p.2.state = '=')) rest := by
          rw [List.countP_cons]
          simp [he]
        rcases @updateStep_not_fallthrough fl r perm inputs hv2
          with hout | ⟨a, st, hout⟩
        · simp only [onUpdateLoop, hout]
          rw [ih _ _ acc hthr (fun p hp => hst p (List.mem_cons_of_mem _ hp))]
          rw [hcount]
        · simp only [onUpdateLoop, hout, if_pos hthr]
          rw [ih _ _ acc hthr (fun p hp => hst p (List.mem_cons_of_mem _ hp))]
          rw [hcount]

/-- Witness for `c10_processed_count`: one `'='` record and one `'<'`
record under a pool of size 2 yield a processed count of 1. -/
theorem c10_processed_count_witness :
    onUpdateLoop ({} : UpdateFlags) 2 recsC10 [] [] 0 = some 1 := by
  have h := c10_processed_count ({} : UpdateFlags) 2 recsC10 [] [] 0 (by decide)
    (by decide)
  rw [h]
  rfl

/-- C6 (counterexample): `Worker.run` wraps the task call in
`try .. finally` with no `except`, so after a task raises, the worker that
ran it terminates — it does not continue its loop: the subsequently queued
task is left unexecuted by that worker. -/
theorem c6_worker_counterexample :
    workerRun [TOutcome.exn, TOutcome.ok 5] [] = ([TOutcome.ok 5], [], true)
    ∧ ([TOutcome.ok 5] : List TOutcome) ≠ [] := by
  exact ⟨rfl, by decide⟩

/-- C6 (amended): `join()` never sees a task exception — the failing task
is still marked done in the `finally`, so the unfinished count drains and
`join`, which only polls that count, returns without error as long as the
surviving workers drain the queue; but the worker that ran the failing
task terminates, and subsequently queued tasks are executed only by the
remaining workers (with more live workers than failures, every task still
completes and all successful results are collected). -/
theorem c6_join_amended :
    (∀ (rest : List TOutcome) (res : List Nat),
      workerRun (TOutcome.exn :: rest) res = (rest, res, true))
    ∧ (∀ (q : List TOutcome) (alive : Nat) (res : List Nat),
        q.countP isExn < alive →
        (poolRun alive q res).2.2 = [] ∧ (poolRun alive q res).2.1 = res ++ okSizes q) := by
  constructor
  · intro rest res
    rfl
  · intro q
    induction q with
    | nil =>
        intro alive res _
        cases alive with
        | zero => simp [poolRun, okSizes]
        | succ a => simp [poolRun, okSizes]
    | cons t rest ih =>
        intro alive res h
        cases t with
        | ok n =>
            cases alive with
            | zero => exact absurd h (Nat.not_lt_zero _)
            | succ a =>
                simp only [poolRun]
                have h2 : rest.countP isExn < a + 1 := by
                  rw [List.countP_cons] at h
                  simpa [isExn] using h
                rcases ih (a + 1) (res ++ [n]) h2 with ⟨ha, hb⟩
                refine ⟨ha, ?_⟩
                rw [hb]
                simp [okSizes]
        | exn =>
            cases alive with
            | zero => exact absurd h (Nat.not_lt_zero _)
            | succ a =>
                simp only [poolRun]
                have h2 : rest.countP isExn < a := by
                  rw [List.countP_cons] at h
                  simp [isExn] at h
                  omega
                rcases ih a res h2 with ⟨ha, hb⟩
                refine ⟨ha, ?_⟩
                rw [hb]
                simp [okSizes]

/-- Witness for `c6_join_amended`: a queue with one failing and one
successful task under two workers drains completely; the lone worker that
hit the exception stops with the second task still queued. -/
theorem c6_join_amended_witness :
    workerRun [TOutcome.exn, TOutcome.ok 5] [] = ([TOutcome.ok 5], [], true)
    ∧ (poolRun 2 [TOutcome.exn, TOutcome.ok 5] []).2.2 = []
    ∧ (poolRun 2 [TOutcome.exn, TOutcome.ok 5] []).2.1
        = [] ++ okSizes [TOutcome.exn, TOutcome.ok 5] := by
  have h1 := c6_join_amended.1 [TOutcome.ok 5] []
  have h2 := c6_join_amended.2 [TOutcome.exn, TOutcome.ok 5] 2 [] (by decide)
  exact ⟨h1, h2.1, h2.2⟩

/-- The rename-pass match condition, unfolded: state `'-'`, equal size,
equal hash — the hash test is unconditional. -/
theorem renameMatches_spec {nd d : Record} (h : renameMatches nd d = true) :
    d.state = '-' ∧ d.size = nd.localSize ∧ d.md5 = nd.md5 := by
  simp only [renameMatches, Bool.and_eq_true, decide_eq_true_eq] at h
  exact ⟨h.1.1, h.1.2, h.2⟩

/-- C2 (counterexample): the rename pass compares content hashes
unconditionally; `skip_md5` is not consulted there.  With `--skip-md5`
set, a size-equal `'+'`/`'-'` pair with different hashes is left unpaired,
although the claim (hash equality required only when hash comparison is
enabled) predicts a rename. -/
theorem c2_rename_hash_counterexample :
    onDiff ftAll [lfC2] [roC2] modesAll true
      = Except.ok [("a", minusRecord roC2), ("b", plusRecord lfC2)]
    ∧ (minusRecord roC2).state = '-'
    ∧ (plusRecord lfC2).state = '+'
    ∧ lfC2.size = roC2.size
    ∧ lfC2.hash ≠ roC2.md5 := by
  exact ⟨rfl, rfl, rfl, rfl, by decide⟩

/-- C2 (amended): in the rename pass, a `'+'` record at key `k` is paired
with the first encountered `'-'` record whose size equals the `'+'`
record's local size and whose hash is equal — the hash comparison is
always performed, regardless of the skip-md5 flag.  On a match the `'-'`
record's state becomes `'r'`, its `local_name` is set to `k`, a comment
noting the new name is appended, and `k` is deleted from the map when the
pass finishes. -/
theorem c2_rename_first_match_amended
    (m : DiffMap) (rest td : List String) (k n : String) (nd d : Record)
    (hfind : findRec k m = some nd) (hplus : nd.state = '+')
    (htarget : findRenameTarget nd m = some (n, d)) :
    renameScan (k :: rest) m td
      = renameScan rest (insertRec n (renameUpdate d k nd) m) (td ++ [k])
    ∧ (∃ pre post, m = pre ++ (n, d) :: post
        ∧ (∀ q ∈ pre, renameMatches nd q.2 = false)
        ∧ d.state = '-' ∧ d.size = nd.localSize ∧ d.md5 = nd.md5)
    ∧ (renameUpdate d k nd).state = 'r'
    ∧ (renameUpdate d k nd).localName = some k
    ∧ (renameUpdate d k nd).comment = d.comment ++ [Comment.newName k]
    ∧ findRec k (renameFinish
        (renameScan rest (insertRec n (renameUpdate d k nd) m) (td ++ [k]))) = none := by
  have hstep : renameScan (k :: rest) m td
      = renameScan rest (insertRec n (renameUpdate d k nd) m) (td ++ [k]) := by
    simp only [renameScan, hfind, if_pos hplus, htarget]
  refine ⟨hstep, ?_, rfl, rfl, rfl, ?_⟩
  · rcases findRenameTarget_first htarget with ⟨pre, post, he, hall, hmt⟩
    rcases renameMatches_spec hmt with ⟨h1, h2, h3⟩
    exact ⟨pre, post, he, hall, h1, h2, h3⟩
  · have hk : k ∈ (renameScan rest (insertRec n (renameUpdate d k nd) m) (td ++ [k])).2 :=
      renameScan_toDel_mono (List.mem_append_right _ (List.mem_singleton.2 rfl))
    exact findRec_eraseAll_of_mem_td hk

/-- Witness for `c2_rename_first_match_amended` on a two-record map. -/
theorem c2_rename_first_match_amended_witness :
    (renameUpdate dC2 "b" ndC2).state = 'r'
    ∧ (renameUpdate dC2 "b" ndC2).localName = some "b"
    ∧ findRec "b" (renameFinish
        (renameScan [] (insertRec "a" (renameUpdate dC2 "b" ndC2) mC2) ([] ++ ["b"]))) = none := by
  have h := c2_rename_first_match_amended mC2 [] [] "b" "a" ndC2 dC2 rfl rfl rfl
  exact ⟨h.2.2.1, h.2.2.2.1, h.2.2.2.2.2⟩

/-! ## How the comparison loop can lose a key (for completeness) -/

theorem compareStep_keys_other {modes : List Char} {skipMd5 : Bool} {m mm : DiffMap}
    {lf : LocalFile} {k : String}
    (hne : k ≠ lf.key) (h : compareStep modes skipMd5 m lf = Except.ok mm)
    (hk : k ∈ keysOf m) : k ∈ keysOf mm := by
  cases hf : findRec lf.key m with
  | some r =>
      simp only [compareStep, hf] at h
      cases hcr : compareRecord skipMd5 lf r with
      | error e =>
          simp only [hcr] at h
          exact Except.noConfusion h
      | ok r2 =>
          simp only [hcr] at h
          by_cases hmem : r2.state ∈ modes
          · rw [if_pos hmem] at h
            rw [← Except.ok.inj h]
            exact mem_keysOf_insertRec.2 (Or.inr hk)
          · rw [if_neg hmem] at h
            rw [← Except.ok.inj h]
            rcases mem_keysOf.1 hk with ⟨r3, hr3⟩
            exact mem_keysOf.2 ⟨r3, mem_eraseRec_of hr3 hne⟩
  | none =>
      simp only [compareStep, hf] at h
      by_cases hpm : '+' ∈ modes ∨ 'r' ∈ modes
      · rw [if_pos hpm] at h
        rw [← Except.ok.inj h]
        exact mem_keysOf_insertRec.2 (Or.inr hk)
      · rw [if_neg hpm] at h
        rw [← Except.ok.inj h]
        exact hk

theorem compareStep_at_key {modes : List Char} {skipMd5 : Bool} {m mm : DiffMap}
    {lf : LocalFile}
    (h : compareStep modes skipMd5 m lf = Except.ok mm) (hk : lf.key ∉ keysOf mm) :
    (∃ r r2, findRec lf.key m = some r ∧ compareRecord skipMd5 lf r = Except.ok r2
      ∧ r2.state ∉ modes)
    ∨ (findRec lf.key m = none ∧ '+' ∉ modes ∧ 'r' ∉ modes) := by
  cases hf : findRec lf.key m with
  | some r =>
      simp only [compareStep, hf] at h
      cases hcr : compareRecord skipMd5 lf r with
      | error e =>
          simp only [hcr] at h
          exact Except.noConfusion h
      | ok r2 =>
          simp only [hcr] at h
          by_cases hmem : r2.state ∈ modes
          · rw [if_pos hmem] at h
            exfalso
            apply hk
            rw [← Except.ok.inj h]
            exact mem_keysOf_insertRec.2 (Or.inl rfl)
          · rw [if_neg hmem] at h
            exact Or.inl ⟨r, r2, rfl, hcr, hmem⟩
  | none =>
      simp only [compareStep, hf] at h
      by_cases hpm : '+' ∈ modes ∨ 'r' ∈ modes
      · rw [if_pos hpm] at h
        exfalso
        apply hk
        rw [← Except.ok.inj h]
        exact mem_keysOf_insertRec.2 (Or.inl rfl)
      · rw [if_neg hpm] at h
        push_neg at hpm
        exact Or.inr ⟨rfl, hpm.1, hpm.2⟩

theorem compareStep_nodup {modes : List Char} {skipMd5 : Bool} {m mm : DiffMap}
    {lf : LocalFile}
    (h : compareStep modes skipMd5 m lf = Except.ok mm) (hnd : (keysOf m).Nodup) :
    (keysOf mm).Nodup := by
  cases hf : findRec lf.key m with
  | some r =>
      simp only [compareStep, hf] at h
      cases hcr : compareRecord skipMd5 lf r with
      | error e =>
          simp only [hcr] at h
          exact Except.noConfusion h
      | ok r2 =>
          simp only [hcr] at h
          by_cases hmem : r2.state ∈ modes
          · rw [if_pos hmem] at h
            rw [← Except.ok.inj h]
            exact nodup_keysOf_insertRec hnd
          · rw [if_neg hmem] at h
            rw [← Except.ok.inj h]
            exact nodup_keysOf_eraseRec hnd
  | none =>
      simp only [compareStep, hf] at h
      by_cases hpm : '+' ∈ modes ∨ 'r' ∈ modes
      · rw [if_pos hpm] at h
        rw [← Except.ok.inj h]
        exact nodup_keysOf_insertRec hnd
      · rw [if_neg hpm] at h
        rw [← Except.ok.inj h]
        exact hnd

theorem compareAll_nodup {modes : List Char} {skipMd5 : Bool} :
    ∀ {locals : List LocalFile} {m m2 : DiffMap},
      compareAll modes skipMd5 locals m = Except.ok m2 →
      (keysOf m).Nodup → (keysOf m2).Nodup := by
  intro locals
  induction locals with
  | nil =>
      intro m m2 h hnd
      simp only [compareAll] at h
      have e := Except.ok.inj h
      subst e
      exact hnd
  | cons lf rest ih =>
      intro m m2 h hnd
      simp only [compareAll] at h
      cases hs : compareStep modes skipMd5 m lf with
      | error e =>
          simp only [hs] at h
          exact Except.noConfusion h
      | ok mm =>
          simp only [hs] at h
          exact ih h (compareStep_nodup hs hnd)

theorem compareAll_complete {modes : List Char} {skipMd5 : Bool} :
    ∀ {locals : List LocalFile} {m m2 : DiffMap},
      compareAll modes skipMd5 locals m = Except.ok m2 →
      ∀ k : String, (k ∈ keysOf m ∨ ∃ lf ∈ locals, lf.key = k) →
      k ∈ keysOf m2
      ∨ (∃ pre lf post mp r r2, locals = pre ++ lf :: post ∧ lf.key = k
          ∧ compareAll modes skipMd5 pre m = Except.ok mp
          ∧ findRec k mp = some r
          ∧ compareRecord skipMd5 lf r = Except.ok r2
          ∧ r2.state ∉ modes)
      ∨ ('+' ∉ modes ∧ 'r' ∉ modes ∧ ∃ lf ∈ locals, lf.key = k) := by
  intro locals
  induction locals with
  | nil =>
      intro m m2 h k hk
      simp only [compareAll] at h
      have e := Except.ok.inj h
      subst e
      rcases hk with hk | ⟨lf, hlf, _⟩
      · exact Or.inl hk
      · exact absurd hlf (List.not_mem_nil _)
  | cons lf rest ih =>
      intro m m2 h k hk
      simp only [compareAll] at h
      cases hs : compareStep modes skipMd5 m lf with
      | error e =>
          simp only [hs] at h
          exact Except.noConfusion h
      | ok mm =>
          simp only [hs] at h
          by_cases hnext : k ∈ keysOf mm ∨ ∃ lf2 ∈ rest, lf2.key = k
          · rcases ih h k hnext with h1
              | ⟨pre, lf2, post, mp, r, r2, hdec, hkey, hpre, hfind, hcr, hst⟩
              | ⟨h1, h2, lf2, hlf2, hkey⟩
            · exact Or.inl h1
            · refine Or.inr (Or.inl
                ⟨lf :: pre, lf2, post, mp, r, r2, ?_, hkey, ?_, hfind, hcr, hst⟩)
              · rw [hdec]
                rfl
              · simp only [compareAll, hs]
                exact hpre
            · exact Or.inr (Or.inr ⟨h1, h2, lf2, List.mem_cons_of_mem _ hlf2, hkey⟩)
          · push_neg at hnext
            obtain ⟨hnotmm, hnotrest⟩ := hnext
            have hkeyk : lf.key = k := by
              rcases hk with hk | ⟨lf2, hlf2, hkey2⟩
              · by_contra hne
                exact hnotmm (compareStep_keys_other (fun he => hne he.symm) hs hk)
              · rcases List.mem_cons.1 hlf2 with h2 | h2
                · rw [← h2]
                  exact hkey2
                · exact absurd hkey2 (hnotrest lf2 h2)
            rw [← hkeyk] at hnotmm
            rcases compareStep_at_key hs hnotmm with ⟨r, r2, hf, hcr, hst⟩ | ⟨hf, h1, h2⟩
            · refine Or.inr (Or.inl
                ⟨[], lf, rest, m, r, r2, rfl, hkeyk, rfl, ?_, hcr, hst⟩)
              rw [← hkeyk]
              exact hf
            · exact Or.inr (Or.inr ⟨h1, h2, lf, List.mem_cons_self _ _, hkeyk⟩)

theorem renameScan_inv :
    ∀ {ks : List String} {m : DiffMap} {td : List String},
      (keysOf m).Nodup →
      (∀ x ∈ td, ∃ n r, (n, r) ∈ m ∧ r.state = 'r' ∧ r.localName = some x) →
      (∀ x ∈ td, ∃ rx, findRec x m = some rx ∧ rx.state = '+') →
      keysOf (renameScan ks m td).1 = keysOf m
      ∧ (∀ x ∈ (renameScan ks m td).2,
          ∃ n r, (n, r) ∈ (renameScan ks m td).1 ∧ r.state = 'r' ∧ r.localName = some x)
      ∧ (∀ x ∈ (renameScan ks m td).2,
          ∃ rx, findRec x (renameScan ks m td).1 = some rx ∧ rx.state = '+') := by
  intro ks
  induction ks with
  | nil =>
      intro m td hnd hw hp
      exact ⟨rfl, hw, hp⟩
  | cons k rest ih =>
      intro m td hnd hw hp
      cases hf : findRec k m with
      | none =>
          simp only [renameScan, hf]
          exact ih hnd hw hp
      | some nd =>
          by_cases hs : nd.state = '+'
          · cases ht : findRenameTarget nd m with
            | none =>
                simp only [renameScan, hf, if_pos hs, ht]
                exact ih hnd hw hp
            | some q =>
                obtain ⟨n, d⟩ := q
                simp only [renameScan, hf, if_pos hs, ht]
                rcases findRenameTarget_mem ht with ⟨hdm, hmatch⟩
                rcases renameMatches_spec hmatch with ⟨hdst, _, _⟩
                have hnkeys : n ∈ keysOf m := mem_keysOf.2 ⟨d, hdm⟩
                have hkeq : keysOf (insertRec n (renameUpdate d k nd) m) = keysOf m :=
                  keysOf_insertRec_of_mem hnkeys
                have hnd2 : (keysOf (insertRec n (renameUpdate d k nd) m)).Nodup := by
                  rw [hkeq]
                  exact hnd
                have hfindn : findRec n m = some d := findRec_eq_of_mem_nodup hnd hdm
                have hw2 : ∀ x ∈ td ++ [k],
                    ∃ n2 r, (n2, r) ∈ insertRec n (renameUpdate d k nd) m
                      ∧ r.state = 'r' ∧ r.localName = some x := by
                  intro x hx
                  rcases List.mem_append.1 hx with hx2 | hx2
                  · rcases hw x hx2 with ⟨n0, r0, hm0, hr0, hl0⟩
                    have hn0 : n0 ≠ n := by
                      intro hne
                      rw [hne] at hm0
                      have hfr := findRec_eq_of_mem_nodup hnd hm0
                      rw [hfindn] at hfr
                      have hrd : r0 = d := (Option.some.inj hfr).symm
                      rw [hrd, hdst] at hr0
                      exact absurd hr0 (by decide)
                    exact ⟨n0, r0, mem_insertRec_of_ne hm0 hn0, hr0, hl0⟩
                  · have hxk : x = k := List.mem_singleton.1 hx2
                    rw [hxk]
                    exact ⟨n, renameUpdate d k nd, self_mem_insertRec, rfl, rfl⟩
                have hp2 : ∀ x ∈ td ++ [k],
                    ∃ rx, findRec x (insertRec n (renameUpdate d k nd) m) = some rx
                      ∧ rx.state = '+' := by
                  intro x hx
                  rcases List.mem_append.1 hx with hx2 | hx2
                  · rcases hp x hx2 with ⟨rx, hfx, hpx⟩
                    have hxn : x ≠ n := by
                      intro hne
                      rw [hne] at hfx
                      rw [hfindn] at hfx
                      have hrd : rx = d := Option.some.inj hfx.symm
                      rw [hrd, hdst] at hpx
                      exact absurd hpx (by decide)
                    exact ⟨rx, by rw [findRec_insertRec_ne hxn]; exact hfx, hpx⟩
                  · have hxk : x = k := List.mem_singleton.1 hx2
                    rw [hxk]
                    have hkn : k ≠ n := by
                      intro hne
                      rw [hne] at hf
                      rw [hfindn] at hf
                      have hrd : nd = d := Option.some.inj hf.symm
                      rw [hrd, hdst] at hs
                      exact absurd hs (by decide)
                    exact ⟨nd, by rw [findRec_insertRec_ne hkn]; exact hf, hs⟩
                rcases ih hnd2 hw2 hp2 with ⟨hk1, hk2, hk3⟩
                exact ⟨hk1.trans hkeq, hk2, hk3⟩
          · simp only [renameScan, hf, if_neg hs]
            exact ih hnd hw hp

/-- C4 (counterexample): with the full mode set (so no record can be
discarded by mode filtering), the local-only key `b` of size 5 pairs with
the remote-only key `a` of equal size and hash, and the rename pass drops
`b` from the map entirely: `b` appears in the local inventory, passes the
file-type filter, yet is not a key of the result. -/
theorem c4_completeness_counterexample :
    onDiff ftAll [lfC4] [roC4] modesAll false = Except.ok [("a", rC4out)]
    ∧ ftAll "b" = true
    ∧ '+' ∈ modesAll
    ∧ findRec "b" [("a", rC4out)] = none
    ∧ rC4out.state = 'r'
    ∧ rC4out.localName = some "b" := by
  exact ⟨rfl, rfl, by decide, rfl, rfl, rfl⟩

/-- C4 (amended): every key of either inventory that passes the file-type
filter appears as a key of the diff result, unless a record with that
key's resulting state was discarded because the state is not in the
requested mode set — at the per-key deletion after comparison, at the
skip of a local-only key when neither `'+'` nor `'r'` is requested (the
would-be state `'+'` being unrequested), or at the final filter — or the
key was consumed by rename detection, in which case a record with state
`'r'` in the result carries it as `local_name`. -/
theorem c4_completeness_amended (ft : String → Bool) (locals : List LocalFile)
    (remotes : List RemoteObj) (modes : List Char) (skipMd5 : Bool) (m : DiffMap)
    (h : onDiff ft locals remotes modes skipMd5 = Except.ok m) (k : String)
    (hk : (∃ lf ∈ localInventory ft locals, lf.key = k)
      ∨ ∃ ro ∈ remoteInventory ft remotes, lowerStr ro.name = k) :
    (findRec k m).isSome
    ∨ (∃ n r, (n, r) ∈ m ∧ r.state = 'r' ∧ r.localName = some k)
    ∨ (∃ r2, r2.state ∉ modes ∧ KeyModeDiscard ft locals remotes modes skipMd5 k r2) := by
  simp only [onDiff] at h
  cases hc : compareAll modes skipMd5 (localInventory ft locals)
      (seedRemote (remoteInventory ft remotes) []) with
  | error e =>
      simp only [hc] at h
      exact Except.noConfusion h
  | ok m1 =>
      simp only [hc] at h
      injection h with h2
      have hstart : k ∈ keysOf (seedRemote (remoteInventory ft remotes) [])
          ∨ ∃ lf ∈ localInventory ft locals, lf.key = k := by
        rcases hk with ⟨lf, hlf, he⟩ | ⟨ro, hro, he⟩
        · exact Or.inr ⟨lf, hlf, he⟩
        · exact Or.inl (he ▸ seedRemote_keys_names hro)
      rcases compareAll_complete hc k hstart with hk1
          | ⟨pre, lf, post, mp, r, r2, hdec, hkey, hpre, hfind, hcr, hst⟩
          | ⟨h1, h2x, lf, hlf, hkey⟩
      · -- the key survives the comparison loop
        have hnd1 : (keysOf m1).Nodup :=
          compareAll_nodup hc (seedRemote_nodup (by simp [keysOf]))
        have hfinal : k ∈ keysOf (if 'r' ∈ modes then renamePass m1 else m1) →
            (findRec k m).isSome
            ∨ (∃ n r, (n, r) ∈ m ∧ r.state = 'r' ∧ r.localName = some k)
            ∨ (∃ r2, r2.state ∉ modes
                ∧ KeyModeDiscard ft locals remotes modes skipMd5 k r2) := by
          intro hk2
          by_cases hfil : '-' ∉ modes ∨ '+' ∉ modes
          · rw [if_pos hfil] at h2
            by_cases hin : k ∈ keysOf m
            · exact Or.inl (findRec_isSome_of_mem_keys hin)
            · rcases mem_keysOf.1 hk2 with ⟨r2, hr2⟩
              by_cases hstate : r2.state ∈ modes
              · exfalso
                apply hin
                rw [← h2]
                exact mem_keysOf.2 ⟨r2, List.mem_filter.2 ⟨hr2, by simpa using hstate⟩⟩
              · exact Or.inr (Or.inr ⟨r2, hstate, Or.inr (Or.inr ⟨m1, hc, hr2⟩)⟩)
          · rw [if_neg hfil] at h2
            rw [← h2]
            exact Or.inl (findRec_isSome_of_mem_keys hk2)
        by_cases hr : 'r' ∈ modes
        · rcases @renameScan_inv (keysOf m1) m1 [] hnd1
              (by intro x hx; cases hx) (by intro x hx; cases hx) with ⟨hkeq, hwr, hpr⟩
          by_cases htd : k ∈ (renameScan (keysOf m1) m1 []).2
          · -- consumed by the rename pass
            rcases hwr k htd with ⟨n, r, hnr, hrst, hl⟩
            have hnn : n ∉ (renameScan (keysOf m1) m1 []).2 := by
              intro hcontra
              rcases hpr n hcontra with ⟨rx, hfx, hpx⟩
              have hnodups : (keysOf (renameScan (keysOf m1) m1 []).1).Nodup := by
                rw [hkeq]
                exact hnd1
              have hfr := findRec_eq_of_mem_nodup hnodups hnr
              rw [hfx] at hfr
              have hre : rx = r := Option.some.inj hfr
              have hps : r.state = '+' := by
                rw [← hre]
                exact hpx
              rw [hrst] at hps
              exact absurd hps (by decide)
            have hmem2 : (n, r) ∈ (if 'r' ∈ modes then renamePass m1 else m1) := by
              rw [if_pos hr]
              exact mem_eraseAll_of hnr hnn
            refine Or.inr (Or.inl ⟨n, r, ?_, hrst, hl⟩)
            rw [← h2]
            by_cases hfil : '-' ∉ modes ∨ '+' ∉ modes
            · rw [if_pos hfil]
              refine List.mem_filter.2 ⟨hmem2, ?_⟩
              simp [hrst, hr]
            · rw [if_neg hfil]
              exact hmem2
          · refine hfinal ?_
            rw [if_pos hr]
            have hk3 : k ∈ keysOf (renameScan (keysOf m1) m1 []).1 := by
              rw [hkeq]
              exact hk1
            rcases mem_keysOf.1 hk3 with ⟨rk, hrk⟩
            exact mem_keysOf.2 ⟨rk, mem_eraseAll_of hrk htd⟩
        · refine hfinal ?_
          rw [if_neg hr]
          exact hk1
      · -- discarded at the per-key deletion of the comparison loop
        exact Or.inr (Or.inr ⟨r2, hst,
          Or.inl ⟨pre, lf, post, mp, r, hdec, hkey, hpre, hfind, hcr⟩⟩)
      · -- local-only key skipped: neither '+' nor 'r' requested
        refine Or.inr (Or.inr ⟨plusRecord lf, ?_,
          Or.inr (Or.inl ⟨h1, h2x, lf, hlf, hkey, rfl⟩)⟩)
        simpa [plusRecord] using h1

/-- Witness for `c4_completeness_amended`: at the counterexample instance
(full mode set, so no mode discard is possible), the consumed key `b` is
carried as `local_name` by the `'r'` record. -/
theorem c4_completeness_amended_witness :
    rC4out.localName = some "b" ∧ rC4out.state = 'r' := by
  have h := c4_completeness_amended ftAll [lfC4] [roC4] modesAll false
    [("a", rC4out)] rfl "b"
    (Or.inl ⟨{ lfC4 with key := lowerStr lfC4.key }, List.mem_singleton.2 rfl, rfl⟩)
  rcases h with h | ⟨n, r, hm, hs, hl⟩ | ⟨r2, _, hd⟩
  · exact absurd h (by decide)
  · have he : (n, r) = ("a", rC4out) := List.mem_singleton.1 hm
    injection he with he1 he2
    rw [← he2]
    exact ⟨hl, hs⟩
  · exfalso
    rcases hd with ⟨pre, lf, post, mp, r, hdec, hkey, hpre, hfind, hcr⟩
        | ⟨hplus, _, _⟩ | ⟨m1, hm1, hmem⟩
    · cases pre with
      | nil =>
          have hmp : mp = seedRemote (remoteInventory ftAll [roC4]) [] :=
            (Except.ok.inj hpre).symm
          rw [hmp] at hfind
          exact Option.noConfusion (show (none : Option Record) = some r from hfind)
      | cons y pre2 =>
          have hsing : localInventory ftAll [lfC4]
              = [{ lfC4 with key := lowerStr lfC4.key }] := rfl
          rw [hsing] at hdec
          have hlen := congrArg List.length hdec
          simp [List.length_append] at hlen
    · exact hplus (by decide)
    · have hcc : compareAll modesAll false (localInventory ftAll [lfC4])
          (seedRemote (remoteInventory ftAll [roC4]) [])
          = Except.ok [("a", minusRecord roC4), ("b", plusRecord lfC4)] := rfl
      rw [hcc] at hm1
      have hm1e := Except.ok.inj hm1
      rw [← hm1e] at hmem
      rw [if_pos (show 'r' ∈ modesAll by decide)] at hmem
      have hrp : renamePass [("a", minusRecord roC4), ("b", plusRecord lfC4)]
          = [("a", rC4out)] := rfl
      rw [hrp] at hmem
      have hmm := List.mem_singleton.1 hmem
      injection hmm with e1 e2
      exact absurd e1 (by decide)

end S3Sync
